import Mathlib

/-!
# Verification of the easygo_tracker_bot core

Shallow embedding of the bot's report parser (`bot/parser.py`), medal ranking
job (`bot/medals.py`), medal-cell renderer (`bot/sheets.py`), identity
resolver and report handler (`bot/handlers.py`), together with proofs of the
specification's claims about them.

Texts are modelled as `List Char` (Python strings are sequences of Unicode
code points).  The three regular expressions used by the parser
(`\b(\d{1,2})\.(\d{1,2})(?:\.(\d{2,4}))?\b`, `#(\w+)`, `\b(\d+)\b`) are
embedded as explicit character-level scanners that reproduce Python `re`
semantics (leftmost match, greedy quantifiers with backtracking, word
boundaries, non-overlapping `findall`/`sub` scans).
-/

namespace EasygoBot

/-- Python `\w` (word character) restricted to the character classes the bot
deals with: ASCII alphanumerics, underscore, and the Cyrillic block
U+0400–U+04FF. -/
def isWordChar (c : Char) : Bool :=
  c.isAlphanum || c == '_' || (0x400 ≤ c.toNat && c.toNat ≤ 0x4FF)

/-- ASCII decimal digit, Python `\d` for our inputs. -/
def isDigitCh (c : Char) : Bool := c.isDigit

/-- Python `str.lower` restricted to ASCII letters and the basic Cyrillic
letters (А–Я → а–я, Ё → ё); all other characters are fixed. -/
def lowerCh (c : Char) : Char :=
  if 'A' ≤ c ∧ c ≤ 'Z' then Char.ofNat (c.toNat + 32)
  else if 0x410 ≤ c.toNat ∧ c.toNat ≤ 0x42F then Char.ofNat (c.toNat + 0x20)
  else if c.toNat = 0x401 then Char.ofNat 0x451
  else c

def lowerL (s : List Char) : List Char := s.map lowerCh

/-- The report marker keyword `"отчет"` (lowercase Cyrillic). -/
def otchet : List Char := ['о', 'т', 'ч', 'е', 'т']

/-- Digit run to the number it denotes (`int` of a digit string). -/
def toNatL (s : List Char) : Nat :=
  s.foldl (fun a c => a * 10 + (c.toNat - '0'.toNat)) 0

/-! ## The date regex `\b(\d{1,2})\.(\d{1,2})(?:\.(\d{2,4}))?\b` -/

/-- The three capture groups of one `_DATE_RE` match. -/
structure DateGroups where
  day : List Char
  month : List Char
  year : Option (List Char)
deriving DecidableEq, Repr

/-- Number of characters consumed by a `_DATE_RE` match with these groups. -/
def dmConsumed (g : DateGroups) : Nat :=
  g.day.length + 1 + g.month.length +
    (match g.year with | none => 0 | some ys => 1 + ys.length)

/-- `exactDigits n cs`: succeed iff the first `n` characters of `cs` exist and
are all digits, returning them and the remainder (the regex `\d{n}`). -/
def exactDigits (n : Nat) (cs : List Char) : Option (List Char × List Char) :=
  let pre := cs.take n
  if pre.length = n ∧ pre.all isDigitCh then some (pre, cs.drop n) else none

/-- Word boundary `\b` after a word character: the next character must be
absent or not a word character. -/
def bdry : List Char → Bool
  | [] => true
  | c :: _ => !isWordChar c

/-- `(?:\.(\d{2,4}))?\b` year part after the dot: greedy `{2,4}`, longest
first, each followed by the trailing `\b`. -/
def tryYearLen (n : Nat) (cs : List Char) : Option (List Char) :=
  match exactDigits n cs with
  | some (y, rest) => if bdry rest then some y else none
  | none => none

def tryYearPart (cs : List Char) : Option (List Char) :=
  (tryYearLen 4 cs).orElse fun _ =>
    (tryYearLen 3 cs).orElse fun _ => tryYearLen 2 cs

/-- After the month group: first try the optional `\.(\d{2,4})` group (with
its trailing `\b`), then fall back to no group and the trailing `\b`. -/
def tryAfterMonth (cs : List Char) : Option (Option (List Char)) :=
  match cs with
  | c :: cs' =>
    if c = '.' then
      match tryYearPart cs' with
      | some y => some (some y)
      | none => if bdry (c :: cs') then some none else none
    else if bdry (c :: cs') then some none else none
  | [] => some none

def tryMonthLen (n : Nat) (cs : List Char) : Option (List Char × Option (List Char)) :=
  match exactDigits n cs with
  | some (m, rest) => (tryAfterMonth rest).map fun y => (m, y)
  | none => none

/-- Month group `(\d{1,2})`: greedy, two digits first. -/
def tryMonthPart (cs : List Char) : Option (List Char × Option (List Char)) :=
  (tryMonthLen 2 cs).orElse fun _ => tryMonthLen 1 cs

def tryDayLen (n : Nat) (cs : List Char) : Option DateGroups :=
  match exactDigits n cs with
  | some (d, rest) =>
    match rest with
    | c :: rest' =>
      if c = '.' then (tryMonthPart rest').map fun my => ⟨d, my.1, my.2⟩
      else none
    | [] => none
  | none => none

/-- Attempt a `_DATE_RE` match anchored at the start of `cs` (the leading `\b`
is checked by the caller).  Day group greedy, two digits first. -/
def tryDate (cs : List Char) : Option DateGroups :=
  (tryDayLen 2 cs).orElse fun _ => tryDayLen 1 cs

/-- `_DATE_RE.search`: first match, scanning left to right.  `prevW` records
whether the previous character is a word character (for the leading `\b`). -/
def searchDateAux : List Char → Bool → Option DateGroups
  | [], _ => none
  | c :: rest, prevW =>
    if prevW then searchDateAux rest (isWordChar c)
    else
      match tryDate (c :: rest) with
      | some g => some g
      | none => searchDateAux rest (isWordChar c)

/-- All non-overlapping `_DATE_RE` matches in order (the scan performed by
`_DATE_RE.sub`).  `skip` counts remaining characters of the current match. -/
def dateScanAux : List Char → Nat → Bool → List DateGroups
  | [], _, _ => []
  | _ :: rest, skip+1, _ => dateScanAux rest skip true
  | c :: rest, 0, prevW =>
    if prevW then dateScanAux rest 0 (isWordChar c)
    else
      match tryDate (c :: rest) with
      | some g => g :: dateScanAux rest (dmConsumed g - 1) true
      | none => dateScanAux rest 0 (isWordChar c)

/-- `_DATE_RE.sub(" ", text)`: replace every match by a single space. -/
def stripDatesAux : List Char → Nat → Bool → List Char
  | [], _, _ => []
  | _ :: rest, skip+1, _ => stripDatesAux rest skip true
  | c :: rest, 0, prevW =>
    if prevW then c :: stripDatesAux rest 0 (isWordChar c)
    else
      match tryDate (c :: rest) with
      | some g => ' ' :: stripDatesAux rest (dmConsumed g - 1) true
      | none => c :: stripDatesAux rest 0 (isWordChar c)

/-! ## The hashtag regex `#(\w+)` -/

/-- `re.findall(r"#(\w+)", text)`: the state is `some acc` while scanning the
word-character run after a `#`. -/
def tagsAux : List Char → Option (List Char) → List (List Char)
  | [], none => []
  | [], some acc => if acc = [] then [] else [acc]
  | c :: rest, none =>
    if c = '#' then tagsAux rest (some []) else tagsAux rest none
  | c :: rest, some acc =>
    if isWordChar c then tagsAux rest (some (acc ++ [c]))
    else if acc = [] then
      if c = '#' then tagsAux rest (some []) else tagsAux rest none
    else
      acc :: (if c = '#' then tagsAux rest (some []) else tagsAux rest none)

/-- `re.sub(r"#\w+", " ", text)`: each `#`+run match becomes one space; a `#`
not followed by a word character is kept. -/
def stripTagsAux : List Char → Option (List Char) → List Char
  | [], none => []
  | [], some acc => if acc = [] then ['#'] else [' ']
  | c :: rest, none =>
    if c = '#' then stripTagsAux rest (some [])
    else c :: stripTagsAux rest none
  | c :: rest, some acc =>
    if isWordChar c then stripTagsAux rest (some (acc ++ [c]))
    else if acc = [] then
      '#' :: (if c = '#' then stripTagsAux rest (some [])
              else c :: stripTagsAux rest none)
    else
      ' ' :: (if c = '#' then stripTagsAux rest (some [])
              else c :: stripTagsAux rest none)

/-! ## The number regex `\b(\d+)\b` -/

/-- `re.findall(r"\b(\d+)\b", text)`: a digit run started at a word boundary
counts only if it is followed by a non-word character or the end; a run
followed by a word character is discarded (no shorter sub-run can satisfy the
trailing `\b`). -/
def numsAux : List Char → Bool → Option (List Char) → List (List Char)
  | [], _, none => []
  | [], _, some run => [run]
  | c :: rest, prevW, none =>
    if isDigitCh c ∧ prevW = false then numsAux rest true (some [c])
    else numsAux rest (isWordChar c) none
  | c :: rest, _, some run =>
    if isDigitCh c then numsAux rest true (some (run ++ [c]))
    else if isWordChar c then numsAux rest true none
    else run :: numsAux rest false none

/-! ## `parse_report` -/

/-- A calendar date as constructed by Python `datetime(year, month, day)`. -/
structure PDate where
  year : Nat
  month : Nat
  day : Nat
deriving DecidableEq, Repr

def isLeap (y : Nat) : Bool := y % 4 = 0 && (y % 100 ≠ 0 || y % 400 = 0)

def daysInMonth (y m : Nat) : Nat :=
  if m = 2 then (if isLeap y then 29 else 28)
  else if m = 4 ∨ m = 6 ∨ m = 9 ∨ m = 11 then 30
  else 31

/-- Validity check of `datetime(year, month, day)` (raises `ValueError`
otherwise; `MINYEAR = 1`, `MAXYEAR = 9999`). -/
def isValidDate (y m d : Nat) : Bool :=
  1 ≤ y && y ≤ 9999 && 1 ≤ m && m ≤ 12 && 1 ≤ d && d ≤ daysInMonth y m

/-- Year resolution of `parse_report`: missing year → current year, 2-digit
year → `2000 + value`, otherwise the literal value. -/
def resolveYear (nowYear : Nat) : Option (List Char) → Nat
  | none => nowYear
  | some ys => if ys.length = 2 then 2000 + toNatL ys else toNatL ys

/-- Turn the groups of a date match into the parsed date: construct
`datetime(year, month, day)`, yielding `none` on `ValueError`. -/
def resolveDM (nowYear : Nat) (g : DateGroups) : Option PDate :=
  let day := toNatL g.day
  let month := toNatL g.month
  let year := resolveYear nowYear g.year
  if isValidDate year month day then some ⟨year, month, day⟩ else none

/-- First hashtag whose lowercase form is not the marker keyword. -/
def pickNickname : List (List Char) → Option (List Char)
  | [] => none
  | t :: ts => if lowerL t ≠ otchet then some t else pickNickname ts

/-- Result record of `parse_report` (`ReportData` in `bot/parser.py`). -/
structure ReportData where
  nickname : Option (List Char)
  date : Option PDate
  steps : Option Nat
deriving DecidableEq, Repr

/-- The text after removing date matches and hashtag matches (steps cleanup
phase of `parse_report`). -/
def cleanedText (text : List Char) : List Char :=
  stripTagsAux (stripDatesAux text 0 false) none

/-- Shallow embedding of `parse_report` (`bot/parser.py`).  `nowYear` stands
for `datetime.now().year`. -/
def parse_report (text : List Char) (nowYear : Nat) : ReportData :=
  { nickname := pickNickname (tagsAux text none)
    date := (searchDateAux text false).bind (resolveDM nowYear)
    steps := ((numsAux (cleanedText text) false none).head?).map toNatL }

/-! Sanity checks mirroring `tests/test_parser.py`. -/

example :
    parse_report "#отчет #alice 1.5.2024 8000".data 2026 =
      ⟨some "alice".data, some ⟨2024, 5, 1⟩, some 8000⟩ := by decide

example :
    parse_report "#отчет 1.5.2024 8000".data 2026 =
      ⟨none, some ⟨2024, 5, 1⟩, some 8000⟩ := by decide

example :
    parse_report "#Отчет #Bob 1.5.2024 8000".data 2026 =
      ⟨some "Bob".data, some ⟨2024, 5, 1⟩, some 8000⟩ := by decide

example :
    parse_report "#alice #отчет 1.5.2024 8000".data 2026 =
      ⟨some "alice".data, some ⟨2024, 5, 1⟩, some 8000⟩ := by decide

example : (parse_report "#отчет #u 31.12.24 1000".data 2026).date =
    some ⟨2024, 12, 31⟩ := by decide

example : (parse_report "#отчет #u 15.08 8000".data 2026).date =
    some ⟨2026, 8, 15⟩ := by decide

example : parse_report "#отчет #u 32.13.2024 8000".data 2026 =
    ⟨some "u".data, none, some 8000⟩ := by decide

example : (parse_report "#отчет #alice 5.3.2024 12345".data 2026).steps =
    some 12345 := by decide

example : parse_report "#отчет".data 2026 = ⟨none, none, none⟩ := by decide

example : parse_report "8000 #отчет #alice 1.5.2024".data 2026 =
    ⟨some "alice".data, some ⟨2024, 5, 1⟩, some 8000⟩ := by decide

/-! Differential checks against CPython `re`/`datetime` behaviour on corner
cases (greedy backtracking, word boundaries, invalid calendar dates, leading
zeros, adjacent hashtags). -/

example : parse_report "1.5.12345".data 2026 =
    ⟨none, some ⟨2026, 5, 1⟩, some 12345⟩ := by decide

example : parse_report "12.3.123a".data 2026 =
    ⟨none, some ⟨2026, 3, 12⟩, none⟩ := by decide

example : parse_report "1.2.3.4".data 2026 =
    ⟨none, some ⟨2026, 2, 1⟩, none⟩ := by decide

example : parse_report "11.22.33.44".data 2026 = ⟨none, none, some 44⟩ := by
  decide

example : parse_report "1.23.4567x".data 2026 = ⟨none, none, none⟩ := by decide

example : parse_report "#отчет#alice 5".data 2026 =
    ⟨some "alice".data, none, some 5⟩ := by decide

example : parse_report "##alice 7".data 2026 =
    ⟨some "alice".data, none, some 7⟩ := by decide

example : parse_report "#_1 8".data 2026 =
    ⟨some "_1".data, none, some 8⟩ := by decide

example : parse_report "#алиса 1.5 9".data 2026 =
    ⟨some "алиса".data, some ⟨2026, 5, 1⟩, some 9⟩ := by decide

example : parse_report "abc12.5.24 10".data 2026 =
    ⟨none, none, some 10⟩ := by decide

example : parse_report "12a3".data 2026 = ⟨none, none, none⟩ := by decide

example : parse_report "x -5".data 2026 = ⟨none, none, some 5⟩ := by decide

example : parse_report "1.1.0000 3".data 2026 = ⟨none, none, some 3⟩ := by
  decide

example : parse_report "1.5.123 4".data 2026 =
    ⟨none, some ⟨123, 5, 1⟩, some 4⟩ := by decide

example : parse_report "1.51.5".data 2026 = ⟨none, none, some 5⟩ := by decide

example : parse_report "1.5 2.6 100".data 2026 =
    ⟨none, some ⟨2026, 5, 1⟩, some 100⟩ := by decide

example : parse_report "007 1.5.24".data 2026 =
    ⟨none, some ⟨2024, 5, 1⟩, some 7⟩ := by decide

example : parse_report "#a1 2.3.24 55".data 2026 =
    ⟨some "a1".data, some ⟨2024, 3, 2⟩, some 55⟩ := by decide

example : parse_report "#1 44".data 2026 =
    ⟨some "1".data, none, some 44⟩ := by decide

example : parse_report "1..5 6".data 2026 = ⟨none, none, some 1⟩ := by decide

example : parse_report "1.5. 77".data 2026 =
    ⟨none, some ⟨2026, 5, 1⟩, some 77⟩ := by decide

example : parse_report "31.4.2024 8".data 2026 = ⟨none, none, some 8⟩ := by
  decide

example : parse_report "29.2.2024 9".data 2026 =
    ⟨none, some ⟨2024, 2, 29⟩, some 9⟩ := by decide

example : parse_report "29.2.2023 10".data 2026 = ⟨none, none, some 10⟩ := by
  decide

example : parse_report "0.0 11".data 2026 = ⟨none, none, some 11⟩ := by decide

example : parse_report "00.01.24 12".data 2026 = ⟨none, none, some 12⟩ := by
  decide

example : stripDatesAux "1.2.3.4".data 0 false = " . ".data := by decide

example : stripDatesAux "11.22.33.44".data 0 false = " .44".data := by decide

example : stripDatesAux "1.51.5".data 0 false = " .5".data := by decide

example : tagsAux "##ab #c#d #".data none =
    ["ab".data, "c".data, "d".data] := by decide

example : numsAux "12a3 4.5 -6 x7 8".data false none =
    ["4".data, "5".data, "6".data, "8".data] := by decide

/-! ## Medal assignment (`bot/medals.py`) -/

inductive MedalType
  | GOLD
  | SILVER
  | BRONZE
deriving DecidableEq, Repr

/-- `MEDAL_SYMBOLS` from `bot/models.py` (each symbol is one code point). -/
def MEDAL_SYMBOLS : MedalType → Char
  | .GOLD => '🥇'
  | .SILVER => '🥈'
  | .BRONZE => '🥉'

/-- `StepReport` document (`bot/models.py`). -/
structure StepReport where
  user_id : Option Int
  nickname : List Char
  date : PDate
  steps : Int
deriving DecidableEq, Repr

/-- One step of a stable descending insertion by `steps`: the new element goes
in front of the first element whose steps do not exceed it, so equal-steps
elements keep their original relative order. -/
def insertDesc (r : StepReport) : List StepReport → List StepReport
  | [] => [r]
  | y :: ys => if r.steps < y.steps then y :: insertDesc r ys else r :: y :: ys

/-- `reports.sort(key=lambda r: r.steps, reverse=True)`: Python's sort is
stable, and a stable sort for a fixed key is unique, so the stable insertion
sort below computes exactly the list Python produces. -/
def sortSteps : List StepReport → List StepReport
  | [] => []
  | x :: xs => insertDesc x (sortSteps xs)

def medal_order : List MedalType := [.GOLD, .SILVER, .BRONZE]

/-- The ranking loop of `assign_medals_job`: walk the sorted list with a
`rank` counter and `prev` sentinel; a new distinct steps value increments
`rank`; stop at `rank > 3`; award `medal_order[rank - 1]`. -/
def rankWalk : List StepReport → Nat → Option Int → List (StepReport × MedalType)
  | [], _, _ => []
  | r :: rs, rank, prev =>
    if some r.steps ≠ prev then
      if rank + 1 > 3 then []
      else (r, medal_order.getD rank .GOLD) :: rankWalk rs (rank + 1) (some r.steps)
    else
      if rank > 3 then []
      else (r, medal_order.getD (rank - 1) .GOLD) :: rankWalk rs rank prev

/-- The ranking computation of `assign_medals_job` on the reports of one day
(`bot/medals.py` lines 47–60). -/
def assign_medals (reports : List StepReport) : List (StepReport × MedalType) :=
  rankWalk (sortSteps reports) 0 none

/-- The set of distinct step values of a list of reports. -/
def stepVals (l : List StepReport) : Finset Int := (l.map (·.steps)).toFinset

/-- Dense rank of a steps value: one plus the number of distinct step values
strictly above it. -/
def denseRank (l : List StepReport) (v : Int) : Nat :=
  ((stepVals l).filter (fun w => v < w)).card + 1

/-- The medal awarded at a given dense rank (`medal_order[rank - 1]`). -/
def medalFor (rank : Nat) : MedalType := medal_order.getD (rank - 1) .GOLD

/-- Rank reached by the walk for value `v`, entered with counter `rank` after
last seeing value `p`: `rank` plus the number of distinct step values in
`[v, p)` present in the remaining list. -/
def rankOfIn (l : List StepReport) (rank : Nat) (p v : Int) : Nat :=
  rank + ((stepVals l).filter (fun w => v ≤ w ∧ w < p)).card

/-- The descending-by-steps order maintained by the sort. -/
def DescSteps (a b : StepReport) : Prop := b.steps ≤ a.steps

theorem insertDesc_perm (r : StepReport) (l : List StepReport) :
    (insertDesc r l).Perm (r :: l) := by
  induction l with
  | nil => exact List.Perm.refl _
  | cons y ys ih =>
    unfold insertDesc
    by_cases h : r.steps < y.steps
    · rw [if_pos h]
      exact (ih.cons y).trans (List.Perm.swap r y ys)
    · rw [if_neg h]

theorem sortSteps_perm (l : List StepReport) : (sortSteps l).Perm l := by
  induction l with
  | nil => exact List.Perm.refl _
  | cons x xs ih => exact (insertDesc_perm x (sortSteps xs)).trans (ih.cons x)

theorem pairwise_insertDesc {l : List StepReport} (h : l.Pairwise DescSteps)
    (r : StepReport) : (insertDesc r l).Pairwise DescSteps := by
  induction l with
  | nil => simp [insertDesc]
  | cons y ys ih =>
    rcases List.pairwise_cons.mp h with ⟨hy, hys⟩
    unfold insertDesc
    by_cases hlt : r.steps < y.steps
    · rw [if_pos hlt]
      refine List.pairwise_cons.mpr ⟨?_, ih hys⟩
      intro x hx
      have hx' : x = r ∨ x ∈ ys := by
        have := (insertDesc_perm r ys).mem_iff.mp hx
        simpa using this
      rcases hx' with rfl | hx'
      · exact le_of_lt hlt
      · exact hy x hx'
    · rw [if_neg hlt]
      refine List.pairwise_cons.mpr ⟨?_, h⟩
      intro x hx
      rcases List.mem_cons.mp hx with rfl | hx'
      · exact not_lt.mp hlt
      · exact le_trans (hy x hx') (not_lt.mp hlt)

theorem pairwise_sortSteps (l : List StepReport) :
    (sortSteps l).Pairwise DescSteps := by
  induction l with
  | nil => simp [sortSteps]
  | cons x xs ih => exact pairwise_insertDesc ih x

theorem stepVals_cons (r : StepReport) (l : List StepReport) :
    stepVals (r :: l) = insert r.steps (stepVals l) := by
  simp [stepVals]

theorem mem_stepVals {l : List StepReport} {v : Int} :
    v ∈ stepVals l ↔ ∃ r ∈ l, r.steps = v := by
  simp [stepVals]

/-- Adding back the just-processed value `q` and widening the upper bound from
`q` to `p` adds exactly one element (namely `q`) to the counted range. -/
theorem filter_range_insert {S : Finset Int} {q p v : Int} (hv : v ≤ q) (hq : q < p)
    (hS : ∀ w ∈ S, w ≤ q) :
    (insert q S).filter (fun w => v ≤ w ∧ w < p) =
      insert q (S.filter (fun w => v ≤ w ∧ w < q)) := by
  ext w
  simp only [Finset.mem_filter, Finset.mem_insert]
  constructor
  · rintro ⟨hw | hw, hvw, hwp⟩
    · exact Or.inl hw
    · have hwq := hS w hw
      rcases eq_or_lt_of_le hwq with rfl | hlt
      · exact Or.inl rfl
      · exact Or.inr ⟨hw, hvw, hlt⟩
  · rintro (rfl | ⟨hw, hvw, hwq⟩)
    · exact ⟨Or.inl rfl, hv, hq⟩
    · exact ⟨Or.inr hw, hvw, lt_trans hwq hq⟩

theorem card_filter_range_insert {S : Finset Int} {q p v : Int} (hv : v ≤ q)
    (hq : q < p) (hS : ∀ w ∈ S, w ≤ q) :
    ((insert q S).filter (fun w => v ≤ w ∧ w < p)).card =
      (S.filter (fun w => v ≤ w ∧ w < q)).card + 1 := by
  rw [filter_range_insert hv hq hS]
  apply Finset.card_insert_of_not_mem
  simp only [Finset.mem_filter]
  rintro ⟨-, -, h⟩
  exact lt_irrefl q h

/-- Empty counted range once the value equals the sentinel. -/
theorem filter_range_self (S : Finset Int) (p : Int) :
    S.filter (fun w => p ≤ w ∧ w < p) = ∅ := by
  apply Finset.filter_false_of_mem
  intro w _
  simp only [not_and, not_lt]
  exact fun h => h

/-- Dense rank over the whole value set equals the walk rank after the first
group: counting values strictly above `v` in `insert q S` is the same as
counting values in `[v, q)` in `S` (the `+1` for `q` itself cancels against
`v`'s own membership). -/
theorem card_filter_gt {S : Finset Int} {q v : Int} (hS : ∀ w ∈ S, w ≤ q)
    (hv : v = q ∨ v ∈ S) (hvq : v ≤ q) :
    ((insert q S).filter (fun w => v < w)).card =
      (S.filter (fun w => v ≤ w ∧ w < q)).card := by
  rcases eq_or_lt_of_le hvq with rfl | hlt
  · have h1 : (insert v S).filter (fun w => v < w) = ∅ := by
      apply Finset.filter_false_of_mem
      intro w hw
      rcases Finset.mem_insert.mp hw with rfl | hw
      · exact lt_irrefl w
      · exact not_lt.mpr (hS w hw)
    have h2 : S.filter (fun w => v ≤ w ∧ w < v) = ∅ := filter_range_self S v
    rw [h1, h2]
  · have hvS : v ∈ S := by
      rcases hv with rfl | h
      · exact absurd hlt (lt_irrefl v)
      · exact h
    have h1 : (insert q S).filter (fun w => v < w) =
        insert q (S.filter (fun w => v < w ∧ w < q)) := by
      ext w
      simp only [Finset.mem_filter, Finset.mem_insert]
      constructor
      · rintro ⟨hw | hw, hvw⟩
        · exact Or.inl hw
        · rcases eq_or_lt_of_le (hS w hw) with rfl | hwq
          · exact Or.inl rfl
          · exact Or.inr ⟨hw, hvw, hwq⟩
      · rintro (rfl | ⟨hw, hvw, hwq⟩)
        · exact ⟨Or.inl rfl, hlt⟩
        · exact ⟨Or.inr hw, hvw⟩
    have h2 : S.filter (fun w => v ≤ w ∧ w < q) =
        insert v (S.filter (fun w => v < w ∧ w < q)) := by
      ext w
      simp only [Finset.mem_filter, Finset.mem_insert]
      constructor
      · rintro ⟨hw, hvw, hwq⟩
        rcases eq_or_lt_of_le hvw with rfl | hvw'
        · exact Or.inl rfl
        · exact Or.inr ⟨hw, hvw', hwq⟩
      · rintro (rfl | ⟨hw, hvw, hwq⟩)
        · exact ⟨hvS, le_refl w, hlt⟩
        · exact ⟨hw, le_of_lt hvw, hwq⟩
    rw [h1, h2, Finset.card_insert_of_not_mem, Finset.card_insert_of_not_mem]
    · simp only [Finset.mem_filter, not_and]
      intro _ h
      exact absurd h (lt_irrefl v)
    · simp only [Finset.mem_filter, not_and]
      intro _ _ h
      exact absurd h (lt_irrefl q)

/-- Membership characterization of the ranking walk, for a sorted suffix with
all values bounded by the sentinel `p`. -/
theorem rankWalk_mem {l : List StepReport} (hpw : l.Pairwise DescSteps)
    {p : Int} (hple : ∀ r ∈ l, r.steps ≤ p) (rank : Nat) (r : StepReport)
    (m : MedalType) :
    ((r, m) ∈ rankWalk l rank (some p) ↔
      r ∈ l ∧ rankOfIn l rank p r.steps ≤ 3 ∧
        m = medalFor (rankOfIn l rank p r.steps)) := by
  induction l generalizing rank p with
  | nil => simp [rankWalk]
  | cons r₀ rs ih =>
    have hq : r₀.steps ≤ p := hple r₀ (List.mem_cons_self r₀ rs)
    have hhead : ∀ b ∈ rs, b.steps ≤ r₀.steps := (List.pairwise_cons.mp hpw).1
    have hpw' : rs.Pairwise DescSteps := (List.pairwise_cons.mp hpw).2
    have hSle : ∀ w ∈ stepVals rs, w ≤ r₀.steps := by
      intro w hw
      rcases mem_stepVals.mp hw with ⟨x, hx, rfl⟩
      exact hhead x hx
    by_cases hqp : r₀.steps = p
    · -- the head repeats the sentinel value: rank unchanged
      rw [rankWalk, if_neg (by simp [hqp])]
      have hofin : ∀ v, rankOfIn (r₀ :: rs) rank p v = rankOfIn rs rank p v := by
        intro v
        unfold rankOfIn
        rw [stepVals_cons, hqp, Finset.filter_insert, if_neg]
        simp only [not_and, not_lt]
        exact fun _ => le_refl p
      by_cases hr3 : rank > 3
      · rw [if_pos hr3]
        simp only [List.not_mem_nil, false_iff, not_and]
        intro _ hle
        exfalso
        have : rank ≤ rankOfIn (r₀ :: rs) rank p r.steps := Nat.le_add_right _ _
        omega
      · rw [if_neg hr3]
        have hIH := ih hpw' (fun x hx => hple x (List.mem_cons_of_mem _ hx)) rank
        have hr0 : rankOfIn rs rank p r₀.steps = rank := by
          unfold rankOfIn
          rw [hqp, filter_range_self]
          simp
        constructor
        · intro hmem
          rcases List.mem_cons.mp hmem with heq | hmem'
          · have h1 : r = r₀ := congrArg Prod.fst heq
            have h2 : m = medal_order.getD (rank - 1) .GOLD := congrArg Prod.snd heq
            refine ⟨List.mem_cons.mpr (Or.inl h1), ?_, ?_⟩
            · rw [hofin, h1, hr0]; omega
            · rw [hofin, h1, hr0]; exact h2
          · rcases hIH.mp hmem' with ⟨hmem'', hle, hm⟩
            exact ⟨List.mem_cons.mpr (Or.inr hmem''), by rw [hofin]; exact hle,
              by rw [hofin]; exact hm⟩
        · rintro ⟨hmem, hle, hm⟩
          rw [hofin] at hle hm
          rcases List.mem_cons.mp hmem with rfl | hmem'
          · apply List.mem_cons.mpr
            left
            rw [hr0] at hm
            rw [hm]
            rfl
          · exact List.mem_cons.mpr (Or.inr (hIH.mpr ⟨hmem', hle, hm⟩))
    · -- a new distinct value: rank increments
      have hlt : r₀.steps < p := lt_of_le_of_ne hq hqp
      rw [rankWalk, if_pos (by simp [hqp])]
      have hofin : ∀ v, v ≤ r₀.steps →
          rankOfIn (r₀ :: rs) rank p v = rankOfIn rs (rank + 1) r₀.steps v := by
        intro v hv
        unfold rankOfIn
        rw [stepVals_cons, card_filter_range_insert hv hlt hSle]
        omega
      by_cases hr3 : rank + 1 > 3
      · rw [if_pos hr3]
        simp only [List.not_mem_nil, false_iff, not_and]
        intro hmem hle
        exfalso
        have hvle : r.steps ≤ r₀.steps := by
          rcases List.mem_cons.mp hmem with rfl | hmem'
          · exact le_refl _
          · exact hhead r hmem'
        rw [hofin r.steps hvle] at hle
        have : rank + 1 ≤ rankOfIn rs (rank + 1) r₀.steps r.steps :=
          Nat.le_add_right _ _
        omega
      · rw [if_neg hr3]
        have hIH := ih hpw' hhead (rank + 1)
        have hr0 : rankOfIn rs (rank + 1) r₀.steps r₀.steps = rank + 1 := by
          unfold rankOfIn
          rw [filter_range_self]
          simp
        have hmedal : medal_order.getD rank MedalType.GOLD = medalFor (rank + 1) := by
          simp [medalFor]
        constructor
        · intro hmem
          rcases List.mem_cons.mp hmem with heq | hmem'
          · have h1 : r = r₀ := congrArg Prod.fst heq
            have h2 : m = medal_order.getD rank .GOLD := congrArg Prod.snd heq
            refine ⟨List.mem_cons.mpr (Or.inl h1), ?_, ?_⟩
            · rw [h1, hofin _ (le_refl _), hr0]; omega
            · rw [h1, hofin _ (le_refl _), hr0, ← hmedal]; exact h2
          · rcases hIH.mp hmem' with ⟨hmem'', hle, hm⟩
            have hvle : r.steps ≤ r₀.steps := hhead r hmem''
            exact ⟨List.mem_cons.mpr (Or.inr hmem''), by rw [hofin _ hvle]; exact hle,
              by rw [hofin _ hvle]; exact hm⟩
        · rintro ⟨hmem, hle, hm⟩
          rcases List.mem_cons.mp hmem with rfl | hmem'
          · rw [hofin _ (le_refl _), hr0] at hm
            apply List.mem_cons.mpr
            left
            rw [hm, hmedal]
          · have hvle : r.steps ≤ r₀.steps := hhead r hmem'
            rw [hofin _ hvle] at hle hm
            exact List.mem_cons.mpr (Or.inr (hIH.mpr ⟨hmem', hle, hm⟩))

theorem stepVals_perm {l₁ l₂ : List StepReport} (h : l₁.Perm l₂) :
    stepVals l₁ = stepVals l₂ := by
  ext v
  simp [mem_stepVals, h.mem_iff]

/-- Full membership characterization of `assign_medals`: a record is awarded
the medal of the dense rank of its steps value, iff that rank is at most 3. -/
theorem assign_mem (reports : List StepReport) (r : StepReport) (m : MedalType) :
    (r, m) ∈ assign_medals reports ↔
      r ∈ reports ∧ denseRank reports r.steps ≤ 3 ∧
        m = medalFor (denseRank reports r.steps) := by
  unfold assign_medals
  have hperm := sortSteps_perm reports
  have hpw := pairwise_sortSteps reports
  cases hsort : sortSteps reports with
  | nil =>
    rw [hsort] at hperm
    have : reports = [] := hperm.symm.eq_nil
    subst this
    simp [rankWalk]
  | cons r₀ rs =>
    rw [hsort] at hperm hpw
    have hhead : ∀ b ∈ rs, b.steps ≤ r₀.steps := (List.pairwise_cons.mp hpw).1
    have hpw' : rs.Pairwise DescSteps := (List.pairwise_cons.mp hpw).2
    have hSle : ∀ w ∈ stepVals rs, w ≤ r₀.steps := by
      intro w hw
      rcases mem_stepVals.mp hw with ⟨x, hx, rfl⟩
      exact hhead x hx
    have hvals : stepVals reports = insert r₀.steps (stepVals rs) := by
      rw [← stepVals_perm hperm, stepVals_cons]
    rw [rankWalk, if_pos (by simp), if_neg (by omega)]
    have hdr : ∀ v, (v = r₀.steps ∨ v ∈ stepVals rs) → v ≤ r₀.steps →
        denseRank reports v = rankOfIn rs 1 r₀.steps v := by
      intro v hv hvle
      unfold denseRank rankOfIn
      rw [hvals, card_filter_gt hSle hv hvle]
      omega
    have hIH := rankWalk_mem hpw' hhead 1 r m
    have hmem_total : ∀ x, x ∈ reports ↔ (x = r₀ ∨ x ∈ rs) := by
      intro x
      rw [← hperm.mem_iff]
      exact List.mem_cons
    have hr0 : rankOfIn rs 1 r₀.steps r₀.steps = 1 := by
      unfold rankOfIn
      rw [filter_range_self]
      simp
    constructor
    · intro hmem
      rcases List.mem_cons.mp hmem with heq | hmem'
      · have h1 : r = r₀ := congrArg Prod.fst heq
        have h2 : m = medal_order.getD 0 .GOLD := congrArg Prod.snd heq
        refine ⟨(hmem_total r).mpr (Or.inl h1), ?_, ?_⟩
        · rw [h1, hdr _ (Or.inl rfl) (le_refl _), hr0]; omega
        · rw [h1, hdr _ (Or.inl rfl) (le_refl _), hr0]; exact h2
      · rcases hIH.mp hmem' with ⟨hmem'', hle, hm⟩
        have hvmem : r.steps = r₀.steps ∨ r.steps ∈ stepVals rs :=
          Or.inr (mem_stepVals.mpr ⟨r, hmem'', rfl⟩)
        have hvle : r.steps ≤ r₀.steps := hhead r hmem''
        exact ⟨(hmem_total r).mpr (Or.inr hmem''),
          by rw [hdr _ hvmem hvle]; exact hle,
          by rw [hdr _ hvmem hvle]; exact hm⟩
    · rintro ⟨hmem, hle, hm⟩
      rcases (hmem_total r).mp hmem with rfl | hmem'
      · rw [hdr _ (Or.inl rfl) (le_refl _), hr0] at hm
        apply List.mem_cons.mpr
        left
        rw [hm]
        rfl
      · have hvmem : r.steps = r₀.steps ∨ r.steps ∈ stepVals rs :=
          Or.inr (mem_stepVals.mpr ⟨r, hmem', rfl⟩)
        have hvle : r.steps ≤ r₀.steps := hhead r hmem'
        rw [hdr _ hvmem hvle] at hle hm
        exact List.mem_cons.mpr (Or.inr (hIH.mpr ⟨hmem', hle, hm⟩))

theorem denseRank_injOn (reports : List StepReport) :
    ∀ v ∈ stepVals reports, ∀ w ∈ stepVals reports,
      denseRank reports v = denseRank reports w → v = w := by
  have key : ∀ v w, w ∈ stepVals reports → v < w →
      denseRank reports w < denseRank reports v := by
    intro v w hw hlt
    unfold denseRank
    have hsub : insert w ((stepVals reports).filter (fun u => w < u)) ⊆
        (stepVals reports).filter (fun u => v < u) := by
      intro u hu
      rcases Finset.mem_insert.mp hu with rfl | hu
      · exact Finset.mem_filter.mpr ⟨hw, hlt⟩
      · rcases Finset.mem_filter.mp hu with ⟨h1, h2⟩
        exact Finset.mem_filter.mpr ⟨h1, lt_trans hlt h2⟩
    have hcard := Finset.card_le_card hsub
    rw [Finset.card_insert_of_not_mem] at hcard
    · omega
    · simp only [Finset.mem_filter]
      rintro ⟨-, h⟩
      exact lt_irrefl w h
  intro v hv w hw heq
  rcases lt_trichotomy v w with h | h | h
  · have := key v w hw h; omega
  · exact h
  · have := key w v hv h; omega

/-- At most three distinct step values ever receive a medal. -/
theorem awarded_vals_card_le (reports : List StepReport) :
    ((assign_medals reports).map (fun x => x.1.steps)).toFinset.card ≤ 3 := by
  classical
  have h3 : (Finset.Icc 1 3 : Finset ℕ).card = 3 := by decide
  rw [← h3]
  have hstep : ∀ v ∈ ((assign_medals reports).map (fun x => x.1.steps)).toFinset,
      v ∈ stepVals reports ∧ denseRank reports v ≤ 3 := by
    intro v hv
    rw [List.mem_toFinset, List.mem_map] at hv
    obtain ⟨⟨r, m⟩, hmem, rfl⟩ := hv
    obtain ⟨hrep, hle, -⟩ := (assign_mem reports r m).mp hmem
    exact ⟨mem_stepVals.mpr ⟨r, hrep, rfl⟩, hle⟩
  apply Finset.card_le_card_of_injOn (fun v => denseRank reports v)
  · intro v hv
    refine Finset.mem_Icc.mpr ⟨?_, (hstep v hv).2⟩
    unfold denseRank
    omega
  · intro v hv w hw heq
    exact denseRank_injOn reports v (hstep v (Finset.mem_coe.mp hv)).1
      w (hstep w (Finset.mem_coe.mp hw)).1 heq

/-- C1: for every non-empty list of one-day step records, `assign_medals`
implements dense ranking over distinct step values sorted descending: a
record is in the output with medal `m` iff the dense rank `k` of its steps
value (one plus the number of distinct larger values) is at most 3 and `m` is
the `k`-th medal (1 → GOLD, 2 → SILVER, 3 → BRONZE); all records sharing a
step value receive the same medal; and at most 3 distinct step values are
awarded. -/
theorem claim_dense_ranking (reports : List StepReport) (_hne : reports ≠ []) :
    (medalFor 1 = MedalType.GOLD ∧ medalFor 2 = MedalType.SILVER ∧
      medalFor 3 = MedalType.BRONZE)
    ∧ (∀ r m, ((r, m) ∈ assign_medals reports ↔
        r ∈ reports ∧ denseRank reports r.steps ≤ 3 ∧
          m = medalFor (denseRank reports r.steps)))
    ∧ (∀ r m r' m', (r, m) ∈ assign_medals reports →
        (r', m') ∈ assign_medals reports → r.steps = r'.steps → m = m')
    ∧ ((assign_medals reports).map (fun x => x.1.steps)).toFinset.card ≤ 3 := by
  refine ⟨⟨rfl, rfl, rfl⟩, fun r m => assign_mem reports r m, ?_,
    awarded_vals_card_le reports⟩
  intro r m r' m' h h' hsteps
  obtain ⟨-, -, hm⟩ := (assign_mem reports r m).mp h
  obtain ⟨-, -, hm'⟩ := (assign_mem reports r' m').mp h'
  rw [hm, hm', hsteps]

/-- The worked example from the specification: steps 12000, 12000, 9000,
9000, 8000 and a sixth value 7000. -/
def exampleReports : List StepReport :=
  [⟨none, ['a'], ⟨2024, 5, 1⟩, 12000⟩, ⟨none, ['b'], ⟨2024, 5, 1⟩, 12000⟩,
   ⟨none, ['c'], ⟨2024, 5, 1⟩, 9000⟩, ⟨none, ['d'], ⟨2024, 5, 1⟩, 9000⟩,
   ⟨none, ['e'], ⟨2024, 5, 1⟩, 8000⟩, ⟨none, ['f'], ⟨2024, 5, 1⟩, 7000⟩]

theorem claim_dense_ranking_witness :
    exampleReports ≠ [] ∧
      (((⟨none, ['a'], ⟨2024, 5, 1⟩, 12000⟩, MedalType.GOLD) ∈
          assign_medals exampleReports) ↔
        (⟨none, ['a'], ⟨2024, 5, 1⟩, 12000⟩ : StepReport) ∈ exampleReports ∧
          denseRank exampleReports 12000 ≤ 3 ∧
          MedalType.GOLD = medalFor (denseRank exampleReports 12000)) :=
  ⟨by decide, (claim_dense_ranking exampleReports (by decide)).2.1
    ⟨none, ['a'], ⟨2024, 5, 1⟩, 12000⟩ MedalType.GOLD⟩

example : assign_medals exampleReports =
    [(⟨none, ['a'], ⟨2024, 5, 1⟩, 12000⟩, .GOLD),
     (⟨none, ['b'], ⟨2024, 5, 1⟩, 12000⟩, .GOLD),
     (⟨none, ['c'], ⟨2024, 5, 1⟩, 9000⟩, .SILVER),
     (⟨none, ['d'], ⟨2024, 5, 1⟩, 9000⟩, .SILVER),
     (⟨none, ['e'], ⟨2024, 5, 1⟩, 8000⟩, .BRONZE)] := by decide

/-- Two tied records used to exhibit the order-dependence of the output
list. -/
def tieA : StepReport := ⟨none, ['a'], ⟨2024, 5, 1⟩, 1000⟩

def tieB : StepReport := ⟨none, ['b'], ⟨2024, 5, 1⟩, 1000⟩

/-- C4 counterexample: the ordered output of `assign_medals` is not
invariant under permutation of the input — the sort key is `steps` alone, so
tied records keep their input order, not nickname-ascending order.  With the
tied records fed as `[tieB, tieA]`, `tieB` (nickname `b`) precedes `tieA`
(nickname `a`) in the output. -/
theorem claim_ranking_order_counterexample :
    [tieA, tieB].Perm [tieB, tieA] ∧ tieA.steps = tieB.steps ∧
      assign_medals [tieA, tieB] = [(tieA, .GOLD), (tieB, .GOLD)] ∧
      assign_medals [tieB, tieA] = [(tieB, .GOLD), (tieA, .GOLD)] ∧
      assign_medals [tieA, tieB] ≠ assign_medals [tieB, tieA] :=
  ⟨List.Perm.swap tieB tieA [], by decide, by decide, by decide, by decide⟩

/-- C4 (amended): the medal assignment, viewed as the relation between a
record and its medal, is deterministic with respect to input order — for any
two permutations of the same multiset of records, every record receives the
same medal — although the ordered output list itself may list tied records
in different positions. -/
theorem claim_ranking_perm_invariant {l₁ l₂ : List StepReport}
    (hp : l₁.Perm l₂) (r : StepReport) (m : MedalType) :
    ((r, m) ∈ assign_medals l₁ ↔ (r, m) ∈ assign_medals l₂) := by
  rw [assign_mem, assign_mem]
  have hvals := stepVals_perm hp
  unfold denseRank
  rw [hvals, hp.mem_iff]

theorem claim_ranking_perm_invariant_witness :
    [tieA, tieB].Perm [tieB, tieA] ∧
      (((tieA, MedalType.GOLD) ∈ assign_medals [tieA, tieB]) ↔
        ((tieA, MedalType.GOLD) ∈ assign_medals [tieB, tieA])) :=
  ⟨List.Perm.swap tieB tieA [],
    claim_ranking_perm_invariant (List.Perm.swap tieB tieA []) tieA MedalType.GOLD⟩

/-! ## The medal-cell renderer (`SheetsService.write_medal`, `bot/sheets.py`) -/

/-- Python `str.strip()` whitespace characters. -/
def isPySpace (c : Char) : Bool :=
  c = ' ' || c = '\t' || c = '\n' || c = '\r' || c = '\x0b' || c = '\x0c'

/-- Python `str.strip()`: drop whitespace from both ends. -/
def pystrip (l : List Char) : List Char :=
  ((l.dropWhile isPySpace).reverse.dropWhile isPySpace).reverse

/-- One iteration of the cleanup loop in `write_medal`:
`current.replace(s, "").strip()` (each medal symbol is one code point, so
`replace` is a filter). -/
def stripOne (s : Char) (l : List Char) : List Char :=
  pystrip (l.filter (· ≠ s))

/-- The cleanup loop `for s in ("🥇", "🥈", "🥉"): current = current.replace(s, "").strip()`. -/
def stripMedals (l : List Char) : List Char :=
  stripOne '🥉' (stripOne '🥈' (stripOne '🥇' l))

/-- The three medal symbols. -/
def medalSymbols : List Char := ['🥇', '🥈', '🥉']

/-- The medal-cell update of `write_medal`: strip previously written medal
symbols, then `f"{current} {symbol}".strip() if current else symbol`. -/
def appendMedalSymbol (current : List Char) (symbol : Char) : List Char :=
  let c := stripMedals current
  if c = [] then [symbol] else pystrip (c ++ [' ', symbol])

/-- Both ends free of whitespace (the state left by `strip`). -/
def Stripped (l : List Char) : Prop :=
  (∀ x, l.head? = some x → isPySpace x = false) ∧
  (∀ x, l.getLast? = some x → isPySpace x = false)

theorem head_dropWhile_false (p : Char → Bool) :
    ∀ (l : List Char) (x : Char), (l.dropWhile p).head? = some x → p x = false := by
  intro l
  induction l with
  | nil => intro x h; simp at h
  | cons a t ih =>
    intro x h
    rw [List.dropWhile_cons] at h
    by_cases hpa : p a
    · rw [if_pos hpa] at h
      exact ih x h
    · rw [if_neg hpa] at h
      simp only [List.head?_cons, Option.some_inj] at h
      subst h
      simpa using hpa

theorem dropWhile_eq_self_of_head (p : Char → Bool) (l : List Char)
    (h : ∀ x, l.head? = some x → p x = false) : l.dropWhile p = l := by
  cases l with
  | nil => rfl
  | cons a t =>
    rw [List.dropWhile_cons, if_neg]
    rw [h a rfl]
    simp

theorem getLast_dropWhile (p : Char → Bool) :
    ∀ l : List Char, l.dropWhile p = [] ∨ (l.dropWhile p).getLast? = l.getLast? := by
  intro l
  induction l with
  | nil => exact Or.inl rfl
  | cons a t ih =>
    rw [List.dropWhile_cons]
    by_cases hpa : p a
    · rw [if_pos hpa]
      cases t with
      | nil => exact Or.inl rfl
      | cons b u =>
        rcases ih with h | h
        · exact Or.inl h
        · exact Or.inr (by rw [h, List.getLast?_cons_cons])
    · rw [if_neg hpa]
      exact Or.inr rfl

theorem mem_dropWhile {p : Char → Bool} {x : Char} :
    ∀ {l : List Char}, x ∈ l.dropWhile p → x ∈ l := by
  intro l
  induction l with
  | nil => intro h; exact h
  | cons a t ih =>
    intro h
    rw [List.dropWhile_cons] at h
    by_cases hpa : p a
    · rw [if_pos hpa] at h
      exact List.mem_cons_of_mem a (ih h)
    · rw [if_neg hpa] at h
      exact h

theorem mem_pystrip {x : Char} {l : List Char} (h : x ∈ pystrip l) : x ∈ l := by
  unfold pystrip at h
  rw [List.mem_reverse] at h
  have h1 := mem_dropWhile h
  rw [List.mem_reverse] at h1
  exact mem_dropWhile h1

theorem stripped_pystrip (l : List Char) : Stripped (pystrip l) := by
  constructor
  · intro x hx
    unfold pystrip at hx
    rw [List.head?_reverse] at hx
    rcases getLast_dropWhile isPySpace (l.dropWhile isPySpace).reverse with h | h
    · rw [h] at hx
      simp at hx
    · rw [h, List.getLast?_reverse] at hx
      exact head_dropWhile_false isPySpace l x hx
  · intro x hx
    unfold pystrip at hx
    rw [List.getLast?_reverse] at hx
    exact head_dropWhile_false isPySpace _ x hx

theorem pystrip_eq_self {l : List Char} (h : Stripped l) : pystrip l = l := by
  unfold pystrip
  rw [dropWhile_eq_self_of_head _ _ h.1]
  rw [dropWhile_eq_self_of_head]
  · exact List.reverse_reverse l
  · intro x hx
    rw [List.head?_reverse] at hx
    exact h.2 x hx

theorem pystrip_append_space {c : List Char} (h : Stripped c) (hne : c ≠ []) :
    pystrip (c ++ [' ']) = c := by
  unfold pystrip
  have hhead : ∀ x, (c ++ [' ']).head? = some x → isPySpace x = false := by
    intro x hx
    cases c with
    | nil => exact absurd rfl hne
    | cons a t =>
      simp only [List.cons_append, List.head?_cons, Option.some_inj] at hx
      subst hx
      exact h.1 _ rfl
  rw [dropWhile_eq_self_of_head _ _ hhead, List.reverse_append]
  simp only [List.reverse_cons, List.reverse_nil, List.nil_append,
    List.singleton_append]
  rw [List.dropWhile_cons, if_pos (by decide : isPySpace ' ' = true)]
  rw [dropWhile_eq_self_of_head]
  · exact List.reverse_reverse c
  · intro x hx
    rw [List.head?_reverse] at hx
    exact h.2 x hx

theorem stripped_append_symbol {c : List Char} {s : Char} (h : Stripped c)
    (hne : c ≠ []) (hs : isPySpace s = false) : Stripped (c ++ [' ', s]) := by
  constructor
  · intro x hx
    cases c with
    | nil => exact absurd rfl hne
    | cons a t =>
      simp only [List.cons_append, List.head?_cons, Option.some_inj] at hx
      subst hx
      exact h.1 _ rfl
  · intro x hx
    have hlast : (c ++ [' ', s]).getLast? = some s := by
      rw [← List.head?_reverse, List.reverse_append]
      rfl
    rw [hlast, Option.some_inj] at hx
    subst hx
    exact hs

theorem filter_ne_eq_self {s : Char} {l : List Char} (h : s ∉ l) :
    l.filter (· ≠ s) = l := by
  apply List.filter_eq_self.mpr
  intro a ha
  simp only [decide_eq_true_eq]
  exact fun heq => h (heq ▸ ha)

theorem stripOne_eq_self {s : Char} {c : List Char} (hmem : s ∉ c)
    (hst : Stripped c) : stripOne s c = c := by
  unfold stripOne
  rw [filter_ne_eq_self hmem, pystrip_eq_self hst]

theorem stripOne_append_self {s : Char} {c : List Char} (hmem : s ∉ c)
    (hst : Stripped c) (hne : c ≠ []) (hsp : (' ' : Char) ≠ s) :
    stripOne s (c ++ [' ', s]) = c := by
  unfold stripOne
  have hfil : (c ++ [' ', s]).filter (· ≠ s) = c ++ [' '] := by
    rw [List.filter_append, filter_ne_eq_self hmem]
    congr 1
    simp [hsp]
  rw [hfil, pystrip_append_space hst hne]

theorem stripOne_append_other {s t : Char} {c : List Char} (hmem : s ∉ c)
    (hst : Stripped c) (hne : c ≠ []) (hsp : (' ' : Char) ≠ s) (hts : t ≠ s)
    (htp : isPySpace t = false) :
    stripOne s (c ++ [' ', t]) = c ++ [' ', t] := by
  unfold stripOne
  have hfil : (c ++ [' ', t]).filter (· ≠ s) = c ++ [' ', t] := by
    rw [List.filter_append, filter_ne_eq_self hmem]
    congr 1
    simp [hsp, hts]
  rw [hfil, pystrip_eq_self (stripped_append_symbol hst hne htp)]

theorem mem_stripOne {x s : Char} {l : List Char} (h : x ∈ stripOne s l) :
    x ∈ l ∧ x ≠ s := by
  unfold stripOne at h
  have h1 := mem_pystrip h
  rw [List.mem_filter] at h1
  exact ⟨h1.1, by simpa using h1.2⟩

theorem stripMedals_not_mem (l : List Char) :
    '🥇' ∉ stripMedals l ∧ '🥈' ∉ stripMedals l ∧ '🥉' ∉ stripMedals l := by
  unfold stripMedals
  refine ⟨?_, ?_, ?_⟩
  · intro h
    have h1 := (mem_stripOne h).1
    have h2 := (mem_stripOne h1).1
    exact (mem_stripOne h2).2 rfl
  · intro h
    have h1 := (mem_stripOne h).1
    exact (mem_stripOne h1).2 rfl
  · intro h
    exact (mem_stripOne h).2 rfl

theorem stripped_stripMedals (l : List Char) : Stripped (stripMedals l) := by
  unfold stripMedals stripOne
  exact stripped_pystrip _

/-- Re-running the cleanup loop on a cell that was just annotated with one
medal symbol recovers exactly the pre-annotation text. -/
theorem stripMedals_append {c : List Char} {s : Char} (h1 : '🥇' ∉ c)
    (h2 : '🥈' ∉ c) (h3 : '🥉' ∉ c) (hst : Stripped c) (hne : c ≠ [])
    (hs : s ∈ medalSymbols) :
    stripMedals (c ++ [' ', s]) = c := by
  have hsym : s = '🥇' ∨ s = '🥈' ∨ s = '🥉' := by
    simpa [medalSymbols] using hs
  unfold stripMedals
  rcases hsym with rfl | rfl | rfl
  · rw [stripOne_append_self h1 hst hne (by decide),
      stripOne_eq_self h2 hst, stripOne_eq_self h3 hst]
  · rw [stripOne_append_other h1 hst hne (by decide) (by decide) (by decide),
      stripOne_append_self h2 hst hne (by decide), stripOne_eq_self h3 hst]
  · rw [stripOne_append_other h1 hst hne (by decide) (by decide) (by decide),
      stripOne_append_other h2 hst hne (by decide) (by decide) (by decide),
      stripOne_append_self h3 hst hne (by decide)]

/-- C5: the medal-cell update of `write_medal` is idempotent: for every
starting cell text and each of the three medal symbols, applying it twice
with the same symbol yields the same final text as applying it once, because
all previously present medal symbols are stripped before exactly one symbol
is appended. -/
theorem claim_append_medal_idempotent (current : List Char) (symbol : Char)
    (hs : symbol ∈ medalSymbols) :
    appendMedalSymbol (appendMedalSymbol current symbol) symbol =
      appendMedalSymbol current symbol := by
  have hsym : symbol = '🥇' ∨ symbol = '🥈' ∨ symbol = '🥉' := by
    simpa [medalSymbols] using hs
  have hnm := stripMedals_not_mem current
  have hst := stripped_stripMedals current
  have hsp : isPySpace symbol = false := by
    rcases hsym with rfl | rfl | rfl <;> decide
  by_cases hce : stripMedals current = []
  · have hin : appendMedalSymbol current symbol = [symbol] := by
      show (if stripMedals current = [] then [symbol]
            else pystrip (stripMedals current ++ [' ', symbol])) = [symbol]
      rw [if_pos hce]
    rw [hin]
    rcases hsym with rfl | rfl | rfl <;> decide
  · have hin : appendMedalSymbol current symbol =
        stripMedals current ++ [' ', symbol] := by
      show (if stripMedals current = [] then [symbol]
            else pystrip (stripMedals current ++ [' ', symbol])) =
          stripMedals current ++ [' ', symbol]
      rw [if_neg hce, pystrip_eq_self (stripped_append_symbol hst hce hsp)]
    rw [hin]
    show (if stripMedals (stripMedals current ++ [' ', symbol]) = []
          then [symbol]
          else pystrip (stripMedals (stripMedals current ++ [' ', symbol]) ++
            [' ', symbol])) = stripMedals current ++ [' ', symbol]
    rw [stripMedals_append hnm.1 hnm.2.1 hnm.2.2 hst hce hs]
    rw [if_neg hce, pystrip_eq_self (stripped_append_symbol hst hce hsp)]

theorem claim_append_medal_idempotent_witness :
    ('🥇' ∈ medalSymbols) ∧
      appendMedalSymbol (appendMedalSymbol "11000".data '🥇') '🥇' =
        appendMedalSymbol "11000".data '🥇' :=
  ⟨by decide, claim_append_medal_idempotent "11000".data '🥇' (by decide)⟩

example : appendMedalSymbol "11000".data '🥇' = "11000 🥇".data := by decide

example : appendMedalSymbol "11000 🥈".data '🥇' = "11000 🥇".data := by decide

example : appendMedalSymbol [] '🥉' = ['🥉'] := by decide

example : appendMedalSymbol "  🥈x🥉  ".data '🥇' = "x 🥇".data := by decide

example : appendMedalSymbol "🥇🥇".data '🥈' = "🥈".data := by decide

example : appendMedalSymbol "a🥇b".data '🥉' = "ab 🥉".data := by decide

example : appendMedalSymbol "  spaced  ".data '🥈' = "spaced 🥈".data := by
  decide

/-! ## Identity resolution (`_resolve_nickname`, `bot/handlers.py`) -/

/-- The `TelegramUser` profile store, modelled as an association list keyed
by `user_id` (unique index).  `findUser` is
`TelegramUser.find_one(TelegramUser.user_id == user_id)`. -/
def findUser (db : List (Int × List Char)) (uid : Int) : Option (List Char) :=
  (db.find? (fun p => p.1 = uid)).map (·.2)

/-- Result of `_resolve_nickname`: the returned nickname and the profile
store after the side-effecting upsert. -/
structure ResolveResult where
  nickname : Option (List Char)
  db : List (Int × List Char)
deriving DecidableEq, Repr

/-- The stored-profile fallback (`if user_id is not None: ... return None`). -/
def resolveStored (db : List (Int × List Char)) (user_id : Option Int) :
    ResolveResult :=
  match user_id with
  | some uid => ⟨findUser db uid, db⟩
  | none => ⟨none, db⟩

/-- `_resolve_nickname` (`bot/handlers.py` lines 69–94).  `if parsed_nickname:`
is Python truthiness, so an absent or empty parsed nickname falls through to
the stored-profile lookup.  `insert` appends a row; `save` updates the row in
place. -/
def resolve_nickname (db : List (Int × List Char)) (user_id : Option Int)
    (parsed : Option (List Char)) : ResolveResult :=
  match parsed with
  | some n =>
    if n = [] then resolveStored db user_id
    else
      match user_id with
      | some uid =>
        match findUser db uid with
        | none => ⟨some n, db ++ [(uid, n)]⟩
        | some stored =>
          if stored ≠ n then
            ⟨some n, db.map (fun p => if p.1 = uid then (uid, n) else p)⟩
          else ⟨some n, db⟩
      | none => ⟨some n, db⟩
  | none => resolveStored db user_id

theorem findUser_append_self {db : List (Int × List Char)} {uid : Int}
    {n : List Char} (h : findUser db uid = none) :
    findUser (db ++ [(uid, n)]) uid = some n := by
  unfold findUser at h ⊢
  rw [List.find?_append]
  cases hf : db.find? (fun p => p.1 = uid) with
  | none => simp
  | some p => rw [hf] at h; simp at h

theorem findUser_map_update {db : List (Int × List Char)} {uid : Int}
    {n stored : List Char} (h : findUser db uid = some stored) :
    findUser (db.map (fun p => if p.1 = uid then (uid, n) else p)) uid =
      some n := by
  induction db with
  | nil => simp [findUser] at h
  | cons q qs ih =>
    by_cases hq : q.1 = uid
    · unfold findUser
      rw [List.map_cons, if_pos hq, List.find?_cons_of_pos _ (by simp)]
      rfl
    · unfold findUser at h ⊢
      rw [List.find?_cons_of_neg _ (by simpa using hq)] at h
      rw [List.map_cons, if_neg hq, List.find?_cons_of_neg _ (by simpa using hq)]
      exact ih h

theorem resolve_some_none (db : List (Int × List Char)) (n : List Char)
    (hne : n ≠ []) : resolve_nickname db none (some n) = ⟨some n, db⟩ := by
  simp only [resolve_nickname, if_neg hne]

theorem resolve_some_absent (db : List (Int × List Char)) (uid : Int)
    (n : List Char) (hne : n ≠ []) (hf : findUser db uid = none) :
    resolve_nickname db (some uid) (some n) = ⟨some n, db ++ [(uid, n)]⟩ := by
  simp only [resolve_nickname, if_neg hne, hf]

theorem resolve_some_differs (db : List (Int × List Char)) (uid : Int)
    (n stored : List Char) (hne : n ≠ [])
    (hf : findUser db uid = some stored) (hd : stored ≠ n) :
    resolve_nickname db (some uid) (some n) =
      ⟨some n, db.map (fun p => if p.1 = uid then (uid, n) else p)⟩ := by
  simp only [resolve_nickname, if_neg hne, hf, if_pos hd]

theorem resolve_some_same (db : List (Int × List Char)) (uid : Int)
    (n : List Char) (hne : n ≠ []) (hf : findUser db uid = some n) :
    resolve_nickname db (some uid) (some n) = ⟨some n, db⟩ := by
  simp only [resolve_nickname, if_neg hne, hf, if_neg (not_not_intro rfl)]

/-- C9: the identity resolver returns the parsed nickname whenever a
non-empty one is present — upserting the profile when the user id is known:
after resolution the stored nickname equals the parsed one, the profile is
created by appending when absent, and the store is left untouched when it
already agreed (no redundant write); with no parsed nickname it returns the
stored nickname when the user id is known (`none` when no profile exists),
and `none` when neither is present, always leaving the store unchanged. -/
theorem claim_resolve_nickname (db : List (Int × List Char))
    (user_id : Option Int) (parsed : Option (List Char)) :
    (∀ n, parsed = some n → n ≠ [] →
      ((resolve_nickname db user_id parsed).nickname = some n
        ∧ (∀ uid, user_id = some uid →
            findUser (resolve_nickname db user_id parsed).db uid = some n
              ∧ (findUser db uid = none →
                  (resolve_nickname db user_id parsed).db = db ++ [(uid, n)])
              ∧ (findUser db uid = some n →
                  (resolve_nickname db user_id parsed).db = db))
        ∧ (user_id = none → (resolve_nickname db user_id parsed).db = db)))
    ∧ ((parsed = none ∨ parsed = some []) →
        (resolve_nickname db user_id parsed).db = db
          ∧ (∀ uid, user_id = some uid →
              (resolve_nickname db user_id parsed).nickname = findUser db uid)
          ∧ (user_id = none →
              (resolve_nickname db user_id parsed).nickname = none)) := by
  constructor
  · rintro n rfl hne
    refine ⟨?_, ?_, ?_⟩
    · cases user_id with
      | none => rw [resolve_some_none db n hne]
      | some uid =>
        cases hf : findUser db uid with
        | none => rw [resolve_some_absent db uid n hne hf]
        | some stored =>
          by_cases hd : stored = n
          · subst hd
            rw [resolve_some_same db uid stored hne hf]
          · rw [resolve_some_differs db uid n stored hne hf hd]
    · rintro uid rfl
      cases hf : findUser db uid with
      | none =>
        rw [resolve_some_absent db uid n hne hf]
        refine ⟨findUser_append_self hf, fun _ => rfl, fun hc => ?_⟩
        simp at hc
      | some stored =>
        by_cases hd : stored = n
        · subst hd
          rw [resolve_some_same db uid stored hne hf]
          exact ⟨hf, fun hc => by simp at hc, fun _ => rfl⟩
        · rw [resolve_some_differs db uid n stored hne hf hd]
          refine ⟨findUser_map_update hf, fun hc => ?_, fun hsame => ?_⟩
          · simp at hc
          · rw [Option.some_inj] at hsame
            exact absurd hsame hd
    · rintro rfl
      rw [resolve_some_none db n hne]
  · intro hcase
    have hred : resolve_nickname db user_id parsed = resolveStored db user_id := by
      rcases hcase with rfl | rfl
      · rfl
      · simp [resolve_nickname]
    rw [hred]
    cases user_id with
    | none => exact ⟨rfl, fun uid h => by simp at h, fun _ => rfl⟩
    | some uid =>
      refine ⟨rfl, ?_, fun h => by simp at h⟩
      rintro uid2 h
      rw [Option.some_inj] at h
      subst h
      rfl

theorem claim_resolve_nickname_witness :
    ((some "alice".data : Option (List Char)) = some "alice".data) ∧
      "alice".data ≠ ([] : List Char) ∧
      ((resolve_nickname [] (some 7) (some "alice".data)).nickname =
          some "alice".data
        ∧ findUser (resolve_nickname [] (some 7) (some "alice".data)).db 7 =
          some "alice".data) := by
  have h := claim_resolve_nickname [] (some 7) (some "alice".data)
  have h1 := h.1 "alice".data rfl (by decide)
  exact ⟨rfl, by decide, h1.1, (h1.2.1 7 rfl).1⟩

/-! ## Report handling (`_handle_report`, `bot/handlers.py`) -/

inductive ReportOutcome
  | missingNick
  | missingSteps
  | accepted (nickname : List Char) (date : PDate) (steps : Nat)
deriving DecidableEq, Repr

/-- The validation/storage decision of `_handle_report` after parsing and
nickname resolution (`bot/handlers.py` lines 262–320): `if not nickname` is
Python truthiness (absent or empty rejects); missing steps rejects;
`report.date or now` substitutes the current UTC time (modelled by its
calendar date, which is all the record key uses) when the parsed date is
absent; an accepted report is written under `(nickname, date)`.  The
sheets/database I/O failure replies are outside the model. -/
def handle_report_core (nickname : Option (List Char)) (rep : ReportData)
    (now : PDate) : ReportOutcome :=
  match nickname with
  | none => .missingNick
  | some n =>
    if n = [] then .missingNick
    else
      match rep.steps with
      | none => .missingSteps
      | some s => .accepted n (match rep.date with | some d => d | none => now) s

/-- `_handle_report` composed from the parser, the resolver and the decision
core. -/
def handle_report (db : List (Int × List Char)) (user_id : Option Int)
    (text : List Char) (nowYear : Nat) (now : PDate) :
    ReportOutcome × List (Int × List Char) :=
  let rep := parse_report text nowYear
  let res := resolve_nickname db user_id rep.nickname
  (handle_report_core res.nickname rep now, res.db)

/-- C10: a report message whose parsed date is absent but whose nickname and
step count resolve successfully is not rejected: the handler substitutes the
current time for the record's date and accepts the report under
`(nickname, now)`. -/
theorem claim_missing_date_uses_now (db : List (Int × List Char))
    (user_id : Option Int) (text : List Char) (nowYear : Nat) (now : PDate)
    (n : List Char) (s : Nat)
    (hdate : (parse_report text nowYear).date = none)
    (hsteps : (parse_report text nowYear).steps = some s)
    (hn : (resolve_nickname db user_id
      (parse_report text nowYear).nickname).nickname = some n)
    (hne : n ≠ []) :
    (handle_report db user_id text nowYear now).1 =
      ReportOutcome.accepted n now s := by
  show handle_report_core
      (resolve_nickname db user_id (parse_report text nowYear).nickname).nickname
      (parse_report text nowYear) now = ReportOutcome.accepted n now s
  rw [hn]
  unfold handle_report_core
  rw [hsteps, hdate]
  simp only [if_neg hne]

/-! ## Date separator, first-match-only, and parser totality (C3, C6, C7) -/

theorem tryDayLen_none_of_no_dot {n : Nat} {cs : List Char} (h : '.' ∉ cs) :
    tryDayLen n cs = none := by
  unfold tryDayLen
  cases hd : exactDigits n cs with
  | none => rfl
  | some pr =>
    obtain ⟨d, rest⟩ := pr
    have hrest : rest = cs.drop n := by
      unfold exactDigits at hd
      by_cases hc : (cs.take n).length = n ∧ (cs.take n).all isDigitCh
      · rw [if_pos hc] at hd
        cases hd
        rfl
      · rw [if_neg hc] at hd
        cases hd
    cases hr : rest with
    | nil => rfl
    | cons c rest' =>
      have hc : c ≠ '.' := by
        intro hdot
        subst hdot
        apply h
        apply List.mem_of_mem_drop (n := n)
        rw [← hrest, hr]
        exact List.mem_cons_self _ _
      simp [if_neg hc]

theorem tryDate_none_of_no_dot {cs : List Char} (h : '.' ∉ cs) :
    tryDate cs = none := by
  unfold tryDate
  rw [tryDayLen_none_of_no_dot h]
  exact tryDayLen_none_of_no_dot h

theorem searchDate_none_of_no_dot :
    ∀ (cs : List Char) (b : Bool), '.' ∉ cs → searchDateAux cs b = none := by
  intro cs
  induction cs with
  | nil => intro b _; rfl
  | cons c rest ih =>
    intro b h
    have hrest : '.' ∉ rest := fun hr => h (List.mem_cons_of_mem _ hr)
    unfold searchDateAux
    by_cases hb : b
    · rw [if_pos hb]
      exact ih _ hrest
    · rw [if_neg hb, tryDate_none_of_no_dot h]
      exact ih _ hrest

/-- C3 (amended): the date regex accepts only `.` as the separator — a text
containing no `.` character never yields a parsed date, so `D/M/Y` forms are
not recognized (unlike their `.`-separated counterparts, which are). -/
theorem claim_date_separator_dot_only (text : List Char) (nowYear : Nat)
    (h : '.' ∉ text) : (parse_report text nowYear).date = none := by
  show (searchDateAux text false).bind (resolveDM nowYear) = none
  rw [searchDate_none_of_no_dot text false h]
  rfl

/-- C3 counterexample: for the slash-separated date `1/5/2024` with a valid
day/month combination the parser does not return 2024-05-01 (the claim's
required value) — it returns no date at all (and the leading `1` of the
slashed date even becomes the step-count candidate), while the
`.`-separated form of the same date parses as claimed. -/
theorem claim_date_slash_counterexample :
    (parse_report "#отчет #u 1/5/2024 8000".data 2026).date ≠
      some ⟨2024, 5, 1⟩ ∧
      parse_report "#отчет #u 1/5/2024 8000".data 2026 =
        ⟨some "u".data, none, some 1⟩ ∧
      parse_report "#отчет #u 1.5.2024 8000".data 2026 =
        ⟨some "u".data, some ⟨2024, 5, 1⟩, some 8000⟩ :=
  ⟨by decide, by decide, by decide⟩

theorem claim_date_separator_dot_only_witness :
    ('.' ∉ "#отчет #u 1/5/2024 8000".data) ∧
      (parse_report "#отчет #u 1/5/2024 8000".data 2026).date = none :=
  ⟨by decide,
    claim_date_separator_dot_only "#отчет #u 1/5/2024 8000".data 2026
      (by decide)⟩

theorem pickNickname_none {ts : List (List Char)}
    (h : ∀ t ∈ ts, lowerL t = otchet) : pickNickname ts = none := by
  induction ts with
  | nil => rfl
  | cons t ts ih =>
    unfold pickNickname
    rw [if_neg (not_not_intro (h t (List.mem_cons_self t ts)))]
    exact ih fun x hx => h x (List.mem_cons_of_mem _ hx)

/-- C6: `parse` never raises — it is embedded as a total function (the one
Python exception site, `datetime(...)` on an invalid day/month, is caught and
modelled by `resolveDM` returning `none`) — and each absent or unrecoverable
field is `none`: no hashtags, or only marker hashtags, give a `none`
nickname; no date match, or a first match with an invalid calendar date,
gives a `none` date; no remaining standalone integer gives `none` steps. -/
theorem claim_parse_never_raises (text : List Char) (nowYear : Nat) :
    (tagsAux text none = [] → (parse_report text nowYear).nickname = none)
    ∧ ((∀ t ∈ tagsAux text none, lowerL t = otchet) →
        (parse_report text nowYear).nickname = none)
    ∧ (searchDateAux text false = none →
        (parse_report text nowYear).date = none)
    ∧ (∀ g, searchDateAux text false = some g → resolveDM nowYear g = none →
        (parse_report text nowYear).date = none)
    ∧ (numsAux (cleanedText text) false none = [] →
        (parse_report text nowYear).steps = none) := by
  refine ⟨?_, ?_, ?_, ?_, ?_⟩
  · intro h
    show pickNickname (tagsAux text none) = none
    rw [h]
    rfl
  · intro h
    exact pickNickname_none h
  · intro h
    show (searchDateAux text false).bind (resolveDM nowYear) = none
    rw [h]
    rfl
  · intro g hg hres
    show (searchDateAux text false).bind (resolveDM nowYear) = none
    rw [hg]
    exact hres
  · intro h
    show ((numsAux (cleanedText text) false none).head?).map toNatL = none
    rw [h]
    rfl

theorem claim_parse_never_raises_witness :
    tagsAux "#отчет 32.13.2024".data none = [otchet] ∧
      (parse_report "#отчет 32.13.2024".data 2026).nickname = none ∧
      searchDateAux "#отчет 32.13.2024".data false =
        some ⟨"32".data, "13".data, some "2024".data⟩ ∧
      resolveDM 2026 ⟨"32".data, "13".data, some "2024".data⟩ = none ∧
      (parse_report "#отчет 32.13.2024".data 2026).date = none ∧
      numsAux (cleanedText "#отчет 32.13.2024".data) false none = [] ∧
      (parse_report "#отчет 32.13.2024".data 2026).steps = none := by
  have h := claim_parse_never_raises "#отчет 32.13.2024".data 2026
  exact ⟨by decide, h.2.1 (by decide), by decide, by decide,
    h.2.2.2.1 ⟨"32".data, "13".data, some "2024".data⟩ (by decide) (by decide),
    by decide, h.2.2.2.2 (by decide)⟩

/-- The first match found by `search` is the head of the full left-to-right
match scan. -/
theorem searchDate_eq_head :
    ∀ (cs : List Char) (b : Bool),
      searchDateAux cs b = (dateScanAux cs 0 b).head? := by
  intro cs
  induction cs with
  | nil => intro b; rfl
  | cons c rest ih =>
    intro b
    unfold searchDateAux dateScanAux
    by_cases hb : b
    · rw [if_pos hb, if_pos hb]
      exact ih _
    · rw [if_neg hb, if_neg hb]
      cases ht : tryDate (c :: rest) with
      | some g => rfl
      | none => exact ih _

/-- C7: the parsed date comes from the first date-pattern match only — it
equals the head of the full match list resolved through the year rules
(absent year → current year, 2-digit → 2000+value, 4-digit → literal) — and
when that first match resolves to an invalid calendar date the result is
`none`, no later match being tried. -/
theorem claim_first_match_only (text : List Char) (nowYear : Nat) :
    ((parse_report text nowYear).date =
      ((dateScanAux text 0 false).head?).bind (resolveDM nowYear))
    ∧ (∀ g rest, dateScanAux text 0 false = g :: rest →
        resolveDM nowYear g = none → (parse_report text nowYear).date = none)
    ∧ (resolveYear nowYear none = nowYear)
    ∧ (∀ ys, ys.length = 2 → resolveYear nowYear (some ys) = 2000 + toNatL ys)
    ∧ (∀ ys, ys.length = 4 → resolveYear nowYear (some ys) = toNatL ys) := by
  refine ⟨?_, ?_, rfl, ?_, ?_⟩
  · show (searchDateAux text false).bind (resolveDM nowYear) = _
    rw [searchDate_eq_head]
  · intro g rest hscan hres
    show (searchDateAux text false).bind (resolveDM nowYear) = none
    rw [searchDate_eq_head, hscan]
    simpa using hres
  · intro ys h2
    simp only [resolveYear]
    rw [if_pos h2]
  · intro ys h4
    simp only [resolveYear]
    rw [if_neg (by omega : ¬ys.length = 2)]

theorem claim_first_match_only_witness :
    dateScanAux "#отчет 32.13.2024 1.5.2024".data 0 false =
      [⟨"32".data, "13".data, some "2024".data⟩,
       ⟨"1".data, "5".data, some "2024".data⟩] ∧
      resolveDM 2026 ⟨"32".data, "13".data, some "2024".data⟩ = none ∧
      resolveDM 2026 ⟨"1".data, "5".data, some "2024".data⟩ =
        some ⟨2024, 5, 1⟩ ∧
      (parse_report "#отчет 32.13.2024 1.5.2024".data 2026).date = none :=
  ⟨by decide, by decide, by decide,
    (claim_first_match_only "#отчет 32.13.2024 1.5.2024".data 2026).2.1
      ⟨"32".data, "13".data, some "2024".data⟩
      [⟨"1".data, "5".data, some "2024".data⟩] (by decide) (by decide)⟩

/-! ## Token model of report texts (C2, C8)

A report text is modelled as space-separated tokens: the marker tag
`#отчет`, a nickname tag `#w`, a date token `D.M[.Y]`, and an integer token.
The lemmas below compute each scanner's behaviour on such a text, token by
token. -/

inductive Tok
  | marker : Tok
  | nick : List Char → Tok
  | date : List Char → List Char → Option (List Char) → Tok
  | num : List Char → Tok
deriving DecidableEq, Repr

/-- Rendering of one token. -/
def rtok : Tok → List Char
  | .marker => '#' :: otchet
  | .nick s => '#' :: s
  | .date d m none => d ++ '.' :: m
  | .date d m (some yr) => d ++ '.' :: (m ++ '.' :: yr)
  | .num s => s

/-- Join chunks with single spaces. -/
def joinSp : List (List Char) → List Char
  | [] => []
  | [x] => x
  | x :: xs => x ++ ' ' :: joinSp xs

/-- Rendering of a token list: tokens separated by single spaces. -/
def render (l : List Tok) : List Char := joinSp (l.map rtok)

/-- Well-formed tokens: a nickname is a non-empty word-character run distinct
from the marker keyword; day and month are 1–2 digit runs; the year, when
present, is a 2–4 digit run; the integer token is a non-empty digit run. -/
def WfTok : Tok → Prop
  | .marker => True
  | .nick s => s ≠ [] ∧ s.all isWordChar ∧ lowerL s ≠ otchet
  | .date d m y => d ≠ [] ∧ d.length ≤ 2 ∧ d.all isDigitCh ∧
      m ≠ [] ∧ m.length ≤ 2 ∧ m.all isDigitCh ∧
      (match y with
       | none => True
       | some ys => 2 ≤ ys.length ∧ ys.length ≤ 4 ∧ ys.all isDigitCh)
  | .num s => s ≠ [] ∧ s.all isDigitCh

/-- The continuation after a token: the end of the text or a space. -/
def SpNil (rest : List Char) : Prop := rest = [] ∨ ∃ r, rest = ' ' :: r

/-- Concatenated per-token contributions. -/
def concatF {α : Type} (f : Tok → List α) : List Tok → List α
  | [] => []
  | t :: ts => f t ++ concatF f ts

theorem concatF_perm {α : Type} (f : Tok → List α) {l₁ l₂ : List Tok}
    (h : l₁.Perm l₂) : (concatF f l₁).Perm (concatF f l₂) := by
  induction h with
  | nil => exact List.Perm.refl _
  | cons t _ ih => exact ih.append_left (f t)
  | swap x y l =>
    show (f y ++ (f x ++ concatF f l)).Perm (f x ++ (f y ++ concatF f l))
    rw [← List.append_assoc, ← List.append_assoc]
    exact (List.perm_append_comm).append_right _
  | trans _ _ ih1 ih2 => exact ih1.trans ih2

theorem wordChar_of_digit {c : Char} (h : isDigitCh c = true) :
    isWordChar c = true := by
  unfold isWordChar
  unfold isDigitCh at h
  simp [Char.isAlphanum, h]

theorem word_ne_dot {c : Char} (h : isWordChar c = true) : c ≠ '.' := by
  intro hc
  subst hc
  exact absurd h (by decide)

theorem word_ne_space {c : Char} (h : isWordChar c = true) : c ≠ ' ' := by
  intro hc
  subst hc
  exact absurd h (by decide)

/-! ### The hashtag scanner on token texts -/

/-- Tags contributed by each token. -/
def tokTags : Tok → List (List Char)
  | .marker => [otchet]
  | .nick s => [s]
  | _ => []

theorem tagsAux_space (x : List Char) :
    tagsAux (' ' :: x) none = tagsAux x none := by
  simp only [tagsAux]
  rw [if_neg (by decide : ¬(' ' = '#'))]

theorem tagsAux_word_run :
    ∀ (s : List Char) (rest : List Char) (acc : List Char),
      s.all isWordChar → tagsAux (s ++ rest) (some acc) =
        tagsAux rest (some (acc ++ s)) := by
  intro s
  induction s with
  | nil => intro rest acc _; simp
  | cons c s' ih =>
    intro rest acc hall
    rw [List.all_cons, Bool.and_eq_true] at hall
    rw [List.cons_append]
    simp only [tagsAux]
    rw [if_pos hall.1, ih _ _ hall.2, List.append_assoc]
    rfl

theorem tagsAux_no_hash :
    ∀ (s : List Char) (rest : List Char), '#' ∉ s →
      tagsAux (s ++ rest) none = tagsAux rest none := by
  intro s
  induction s with
  | nil => intro rest _; rfl
  | cons c s' ih =>
    intro rest h
    rw [List.cons_append]
    simp only [tagsAux]
    rw [if_neg (show ¬(c = '#') by
      intro hc
      subst hc
      exact h (List.mem_cons_self _ _))]
    exact ih _ fun hc => h (List.mem_cons_of_mem _ hc)

theorem no_hash_of_all_word {s : List Char} (h : s.all isWordChar) :
    '#' ∉ s := by
  intro hmem
  have := List.all_eq_true.mp h _ hmem
  exact absurd this (by decide)

theorem no_hash_of_all_digit {s : List Char} (h : s.all isDigitCh) :
    '#' ∉ s := by
  intro hmem
  have := List.all_eq_true.mp h _ hmem
  exact absurd this (by decide)

theorem tagsAux_hash_token (s : List Char) (rest : List Char)
    (hne : s ≠ []) (hw : s.all isWordChar) (hrest : SpNil rest) :
    tagsAux (('#' :: s) ++ rest) none = s :: tagsAux rest none := by
  rw [List.cons_append]
  rcases hrest with rfl | ⟨r, rfl⟩
  · simp only [tagsAux]
    rw [if_pos trivial, tagsAux_word_run s [] [] hw]
    simp only [List.nil_append, tagsAux]
    rw [if_neg hne]
  · rw [tagsAux_space r]
    simp only [tagsAux]
    rw [if_pos trivial, tagsAux_word_run s (' ' :: r) [] hw]
    simp only [List.nil_append, tagsAux]
    rw [if_neg (by decide : ¬isWordChar ' ' = true), if_neg hne,
      if_neg (by decide : ¬(' ' = '#'))]

theorem tagsAux_token (t : Tok) (rest : List Char) (hwf : WfTok t)
    (hrest : SpNil rest) :
    tagsAux (rtok t ++ rest) none = tokTags t ++ tagsAux rest none := by
  cases t with
  | marker =>
    exact tagsAux_hash_token otchet rest (by decide) (by decide) hrest
  | nick s =>
    obtain ⟨hne, hw, -⟩ := hwf
    exact tagsAux_hash_token s rest hne hw hrest
  | num s =>
    exact tagsAux_no_hash s rest (no_hash_of_all_digit hwf.2)
  | date d m y =>
    obtain ⟨-, -, hd, -, -, hm, hy⟩ := hwf
    cases y with
    | none =>
      show tagsAux ((d ++ '.' :: m) ++ rest) none = tagsAux rest none
      rw [List.append_assoc, tagsAux_no_hash d _ (no_hash_of_all_digit hd),
        List.cons_append]
      simp only [tagsAux]
      rw [if_neg (by decide : ¬('.' = '#'))]
      exact tagsAux_no_hash m rest (no_hash_of_all_digit hm)
    | some ys =>
      obtain ⟨-, -, hys⟩ := hy
      show tagsAux ((d ++ '.' :: (m ++ '.' :: ys)) ++ rest) none =
        tagsAux rest none
      rw [List.append_assoc, tagsAux_no_hash d _ (no_hash_of_all_digit hd),
        List.cons_append]
      simp only [tagsAux]
      rw [if_neg (by decide : ¬('.' = '#')), List.append_assoc,
        tagsAux_no_hash m _ (no_hash_of_all_digit hm), List.cons_append]
      simp only [tagsAux]
      rw [if_neg (by decide : ¬('.' = '#'))]
      exact tagsAux_no_hash ys rest (no_hash_of_all_digit hys)

theorem tagsAux_render (l : List Tok) (hwf : ∀ t ∈ l, WfTok t) :
    tagsAux (render l) none = concatF tokTags l := by
  induction l with
  | nil => rfl
  | cons t ts ih =>
    cases ts with
    | nil =>
      have h := tagsAux_token t [] (hwf t (List.mem_cons_self _ _)) (Or.inl rfl)
      rw [List.append_nil] at h
      show tagsAux (rtok t) none = tokTags t ++ []
      rw [h]
      rfl
    | cons t2 ts2 =>
      show tagsAux (rtok t ++ ' ' :: render (t2 :: ts2)) none =
        tokTags t ++ concatF tokTags (t2 :: ts2)
      rw [tagsAux_token t _ (hwf t (List.mem_cons_self _ _))
        (Or.inr ⟨render (t2 :: ts2), rfl⟩), tagsAux_space,
        ih fun x hx => hwf x (List.mem_cons_of_mem _ hx)]

/-! ### The date scanner on token texts -/

theorem exactDigits_rest {n : Nat} {cs d r : List Char}
    (h : exactDigits n cs = some (d, r)) : r = cs.drop n := by
  unfold exactDigits at h
  by_cases hc : (cs.take n).length = n ∧ (cs.take n).all isDigitCh
  · rw [if_pos hc] at h
    cases h
    rfl
  · rw [if_neg hc] at h
    cases h

theorem exactDigits_none_of_short {n : Nat} {cs : List Char}
    (h : cs.length < n) : exactDigits n cs = none := by
  unfold exactDigits
  rw [if_neg]
  rintro ⟨hlen, -⟩
  rw [List.length_take] at hlen
  omega

theorem exactDigits_none_of_mem_not_digit {n : Nat} {cs : List Char} {c : Char}
    (hmem : c ∈ cs.take n) (hc : isDigitCh c = false) :
    exactDigits n cs = none := by
  unfold exactDigits
  rw [if_neg]
  rintro ⟨-, hall⟩
  rw [List.all_eq_true] at hall
  have := hall c hmem
  rw [hc] at this
  cases this

theorem exactDigits_exact {s : List Char} (h : s.all isDigitCh)
    (rest : List Char) : exactDigits s.length (s ++ rest) = some (s, rest) := by
  show (if ((s ++ rest).take s.length).length = s.length ∧
      ((s ++ rest).take s.length).all isDigitCh then
      some ((s ++ rest).take s.length, (s ++ rest).drop s.length) else none) =
    some (s, rest)
  rw [List.take_left, List.drop_left, if_pos ⟨rfl, h⟩]

theorem exactDigits_succ_not_digit {n : Nat} {c : Char} {cs : List Char}
    (h : isDigitCh c = false) : exactDigits (n + 1) (c :: cs) = none := by
  apply exactDigits_none_of_mem_not_digit (c := c) _ h
  rw [List.take_succ_cons]
  exact List.mem_cons_self _ _

theorem tryDayLen_none_of_drop {n : Nat} {cs : List Char}
    (h : ∀ c r, cs.drop n = c :: r → c ≠ '.') : tryDayLen n cs = none := by
  unfold tryDayLen
  cases e : exactDigits n cs with
  | none => rfl
  | some pr =>
    obtain ⟨d, r⟩ := pr
    have hr := exactDigits_rest e
    cases hcr : r with
    | nil => rfl
    | cons c r2 =>
      have hcd : c ≠ '.' := h c r2 (by rw [← hr, hcr])
      simp only [if_neg hcd]

theorem tryDate_not_digit {c : Char} {cs : List Char}
    (h : isDigitCh c = false) : tryDate (c :: cs) = none := by
  have e2 : exactDigits 2 (c :: cs) = none := exactDigits_succ_not_digit h
  have e1 : exactDigits 1 (c :: cs) = none := exactDigits_succ_not_digit h
  unfold tryDate tryDayLen
  rw [e2, e1]
  rfl

theorem all_word_of_all_digit {s : List Char} (h : s.all isDigitCh) :
    s.all isWordChar := by
  rw [List.all_eq_true] at h ⊢
  exact fun c hc => wordChar_of_digit (h c hc)

/-- A `_DATE_RE` match can never start inside a word-character run followed
by a space or the end of text: the dot required after the 1–2 digit day group
is never reached. -/
theorem tryDate_word_run_none :
    ∀ (ws : List Char) (rest : List Char), ws ≠ [] → ws.all isWordChar →
      SpNil rest → tryDate (ws ++ rest) = none := by
  intro ws rest hne hw hrest
  match ws, hne with
  | [a], _ =>
    rcases hrest with rfl | ⟨r, rfl⟩
    · have t2 : tryDayLen 2 ([a] ++ []) = none := by
        unfold tryDayLen
        rw [exactDigits_none_of_short (by simp)]
      have t1 : tryDayLen 1 ([a] ++ []) = none := by
        apply tryDayLen_none_of_drop
        intro c r h
        simp at h
      unfold tryDate
      rw [t2, t1]
      rfl
    · have t2 : tryDayLen 2 ([a] ++ ' ' :: r) = none := by
        unfold tryDayLen
        rw [exactDigits_none_of_mem_not_digit (c := ' ')
          (by simp [List.take_succ_cons]) (by decide)]
      have t1 : tryDayLen 1 ([a] ++ ' ' :: r) = none := by
        apply tryDayLen_none_of_drop
        intro c r2 h
        rw [List.cons_append, List.drop_succ_cons, List.drop_zero] at h
        cases h
        decide
      unfold tryDate
      rw [t2, t1]
      rfl
  | [a, b], _ =>
    rw [List.all_cons, List.all_cons, Bool.and_eq_true, Bool.and_eq_true] at hw
    have hbw : isWordChar b = true := hw.2.1
    have t2 : tryDayLen 2 ([a, b] ++ rest) = none := by
      apply tryDayLen_none_of_drop
      intro c r2 h
      rcases hrest with rfl | ⟨r, rfl⟩
      · simp at h
      · rw [List.cons_append, List.cons_append, List.drop_succ_cons,
          List.drop_succ_cons, List.drop_zero] at h
        cases h
        decide
    have t1 : tryDayLen 1 ([a, b] ++ rest) = none := by
      apply tryDayLen_none_of_drop
      intro c r2 h
      rw [List.cons_append, List.drop_succ_cons, List.drop_zero,
        List.cons_append] at h
      cases h
      exact word_ne_dot hbw
    unfold tryDate
    rw [t2, t1]
    rfl
  | a :: b :: c :: tl, _ =>
    rw [List.all_cons, List.all_cons, List.all_cons, Bool.and_eq_true,
      Bool.and_eq_true, Bool.and_eq_true] at hw
    have t2 : tryDayLen 2 ((a :: b :: c :: tl) ++ rest) = none := by
      apply tryDayLen_none_of_drop
      intro x r2 h
      rw [List.cons_append, List.cons_append, List.cons_append,
        List.drop_succ_cons, List.drop_succ_cons, List.drop_zero] at h
      cases h
      exact word_ne_dot hw.2.2.1
    have t1 : tryDayLen 1 ((a :: b :: c :: tl) ++ rest) = none := by
      apply tryDayLen_none_of_drop
      intro x r2 h
      rw [List.cons_append, List.drop_succ_cons, List.drop_zero,
        List.cons_append] at h
      cases h
      exact word_ne_dot hw.2.1
    unfold tryDate
    rw [t2, t1]
    rfl

/-- The date scanner passes over a word-character run without finding a
match, leaving the previous-character state `true`. -/
theorem dateScanAux_word_run :
    ∀ (ws : List Char) (rest : List Char) (b : Bool), ws ≠ [] →
      ws.all isWordChar → SpNil rest →
      dateScanAux (ws ++ rest) 0 b = dateScanAux rest 0 true := by
  intro ws
  induction ws with
  | nil => intro rest b h; exact absurd rfl h
  | cons c ws' ih =>
    intro rest b hne hw hrest
    rw [List.all_cons, Bool.and_eq_true] at hw
    have htry : tryDate (c :: (ws' ++ rest)) = none := by
      rw [← List.cons_append]
      exact tryDate_word_run_none (c :: ws') rest hne
        (by rw [List.all_cons, Bool.and_eq_true]; exact hw) hrest
    have hcont : dateScanAux (ws' ++ rest) 0 (isWordChar c) =
        dateScanAux rest 0 true := by
      rw [hw.1]
      cases ws' with
      | nil => rw [List.nil_append]
      | cons d ws2 => exact ih rest true (by simp) hw.2 hrest
    rw [List.cons_append]
    simp only [dateScanAux]
    by_cases hb : b
    · rw [if_pos hb]
      exact hcont
    · rw [if_neg hb, htry]
      exact hcont

/-- Rendering of the optional year part. -/
def apTok : Option (List Char) → List Char
  | none => []
  | some ys => '.' :: ys

theorem bdry_spnil {rest : List Char} (h : SpNil rest) : bdry rest = true := by
  rcases h with rfl | ⟨r, rfl⟩
  · rfl
  · rfl

theorem tryYearLen_exact {ys : List Char} (h : ys.all isDigitCh)
    {rest : List Char} (hrest : SpNil rest) :
    tryYearLen ys.length (ys ++ rest) = some ys := by
  unfold tryYearLen
  rw [exactDigits_exact h rest]
  simp only [if_pos (bdry_spnil hrest)]

theorem tryYearPart_token {ys : List Char} (hd : ys.all isDigitCh)
    (h2 : 2 ≤ ys.length) (h4 : ys.length ≤ 4) {rest : List Char}
    (hrest : SpNil rest) : tryYearPart (ys ++ rest) = some ys := by
  rcases ys with _ | ⟨y1, _ | ⟨y2, _ | ⟨y3, _ | ⟨y4, _ | ⟨y5, tl⟩⟩⟩⟩⟩
  · simp at h2
  · simp at h2
  · -- two-digit year
    have t4 : tryYearLen 4 ([y1, y2] ++ rest) = none := by
      unfold tryYearLen
      rcases hrest with rfl | ⟨r, rfl⟩
      · rw [exactDigits_none_of_short (by simp)]
      · rw [exactDigits_none_of_mem_not_digit (c := ' ') ?_ (by decide)]
        show ' ' ∈ y1 :: y2 :: ' ' :: List.take 1 r
        simp
    have t3 : tryYearLen 3 ([y1, y2] ++ rest) = none := by
      unfold tryYearLen
      rcases hrest with rfl | ⟨r, rfl⟩
      · rw [exactDigits_none_of_short (by simp)]
      · rw [exactDigits_none_of_mem_not_digit (c := ' ') ?_ (by decide)]
        show ' ' ∈ y1 :: y2 :: ' ' :: List.take 0 r
        simp
    unfold tryYearPart
    rw [t4, t3]
    show tryYearLen 2 ([y1, y2] ++ rest) = some [y1, y2]
    exact tryYearLen_exact hd hrest
  · -- three-digit year
    have t4 : tryYearLen 4 ([y1, y2, y3] ++ rest) = none := by
      unfold tryYearLen
      rcases hrest with rfl | ⟨r, rfl⟩
      · rw [exactDigits_none_of_short (by simp)]
      · rw [exactDigits_none_of_mem_not_digit (c := ' ') ?_ (by decide)]
        show ' ' ∈ y1 :: y2 :: y3 :: ' ' :: List.take 0 r
        simp
    unfold tryYearPart
    rw [t4]
    show ((tryYearLen 3 ([y1, y2, y3] ++ rest)).orElse fun _ =>
      tryYearLen 2 ([y1, y2, y3] ++ rest)) = some [y1, y2, y3]
    rw [show tryYearLen 3 ([y1, y2, y3] ++ rest) = some [y1, y2, y3] from
      tryYearLen_exact hd hrest]
    rfl
  · -- four-digit year
    unfold tryYearPart
    rw [show tryYearLen 4 ([y1, y2, y3, y4] ++ rest) = some [y1, y2, y3, y4]
      from tryYearLen_exact hd hrest]
    rfl
  · simp at h4

theorem tryAfterMonth_token {y : Option (List Char)}
    (hy : match y with
          | none => True
          | some ys => 2 ≤ ys.length ∧ ys.length ≤ 4 ∧ ys.all isDigitCh)
    {rest : List Char} (hrest : SpNil rest) :
    tryAfterMonth (apTok y ++ rest) = some y := by
  cases y with
  | none =>
    show tryAfterMonth rest = some none
    rcases hrest with rfl | ⟨r, rfl⟩
    · rfl
    · show tryAfterMonth (' ' :: r) = some none
      simp only [tryAfterMonth]
      rw [if_neg (by decide : ¬(' ' = '.')),
        if_pos (show bdry (' ' :: r) = true from rfl)]
  | some ys =>
    obtain ⟨h2, h4, hd⟩ := hy
    show tryAfterMonth ('.' :: (ys ++ rest)) = some (some ys)
    simp only [tryAfterMonth]
    rw [if_pos trivial, tryYearPart_token hd h2 h4 hrest]

theorem tryMonthPart_token {m : List Char} (hne : m ≠ []) (hlen : m.length ≤ 2)
    (hd : m.all isDigitCh) {y : Option (List Char)}
    (hy : match y with
          | none => True
          | some ys => 2 ≤ ys.length ∧ ys.length ≤ 4 ∧ ys.all isDigitCh)
    {rest : List Char} (hrest : SpNil rest) :
    tryMonthPart (m ++ (apTok y ++ rest)) = some (m, y) := by
  have hafter := tryAfterMonth_token hy hrest
  rcases m with _ | ⟨m1, _ | ⟨m2, tl⟩⟩
  · exact absurd rfl hne
  · -- one-digit month
    have t2 : tryMonthLen 2 ([m1] ++ (apTok y ++ rest)) = none := by
      unfold tryMonthLen
      cases y with
      | some ys =>
        rw [exactDigits_none_of_mem_not_digit (c := '.') ?_ (by decide)]
        show '.' ∈ m1 :: '.' :: List.take 0 (ys ++ rest)
        simp
      | none =>
        rcases hrest with rfl | ⟨r, rfl⟩
        · rw [exactDigits_none_of_short (by simp [apTok])]
        · rw [exactDigits_none_of_mem_not_digit (c := ' ') ?_ (by decide)]
          show ' ' ∈ m1 :: ' ' :: List.take 0 r
          simp
    unfold tryMonthPart
    rw [t2]
    show tryMonthLen 1 ([m1] ++ (apTok y ++ rest)) = some ([m1], y)
    unfold tryMonthLen
    rw [show exactDigits 1 ([m1] ++ (apTok y ++ rest)) =
      some ([m1], apTok y ++ rest) from exactDigits_exact hd _]
    show (tryAfterMonth (apTok y ++ rest)).map (fun z => ([m1], z)) =
      some ([m1], y)
    rw [hafter]
    rfl
  · rcases tl with _ | ⟨x, tl2⟩
    · -- two-digit month
      have t2 : tryMonthLen 2 ([m1, m2] ++ (apTok y ++ rest)) =
          some ([m1, m2], y) := by
        unfold tryMonthLen
        rw [show exactDigits 2 ([m1, m2] ++ (apTok y ++ rest)) =
          some ([m1, m2], apTok y ++ rest) from exactDigits_exact hd _]
        show (tryAfterMonth (apTok y ++ rest)).map (fun z => ([m1, m2], z)) =
          some ([m1, m2], y)
        rw [hafter]
        rfl
      unfold tryMonthPart
      rw [t2]
      rfl
    · simp at hlen

theorem tryDate_token {d : List Char} (hdne : d ≠ []) (hdlen : d.length ≤ 2)
    (hdd : d.all isDigitCh) {m : List Char} {y : Option (List Char)}
    {X : List Char} (hm : tryMonthPart X = some (m, y)) :
    tryDate (d ++ '.' :: X) = some ⟨d, m, y⟩ := by
  rcases d with _ | ⟨d1, _ | ⟨d2, tl⟩⟩
  · exact absurd rfl hdne
  · -- one-digit day
    have t2 : tryDayLen 2 ([d1] ++ '.' :: X) = none := by
      unfold tryDayLen
      rw [exactDigits_none_of_mem_not_digit (c := '.') ?_ (by decide)]
      show '.' ∈ d1 :: '.' :: List.take 0 X
      simp
    unfold tryDate
    rw [t2]
    show tryDayLen 1 ([d1] ++ '.' :: X) = some ⟨[d1], m, y⟩
    unfold tryDayLen
    rw [show exactDigits 1 ([d1] ++ '.' :: X) = some ([d1], '.' :: X) from
      exactDigits_exact hdd _]
    show (if '.' = '.' then
        (tryMonthPart X).map (fun my => DateGroups.mk [d1] my.1 my.2) else none) =
      some ⟨[d1], m, y⟩
    rw [if_pos rfl, hm]
    rfl
  · rcases tl with _ | ⟨x, tl2⟩
    · -- two-digit day
      have t2 : tryDayLen 2 ([d1, d2] ++ '.' :: X) = some ⟨[d1, d2], m, y⟩ := by
        unfold tryDayLen
        rw [show exactDigits 2 ([d1, d2] ++ '.' :: X) =
          some ([d1, d2], '.' :: X) from exactDigits_exact hdd _]
        show (if '.' = '.' then
            (tryMonthPart X).map (fun my => DateGroups.mk [d1, d2] my.1 my.2) else none) =
          some ⟨[d1, d2], m, y⟩
        rw [if_pos rfl, hm]
        rfl
      unfold tryDate
      rw [t2]
      rfl
    · simp at hdlen

theorem dateScanAux_skip :
    ∀ (xs : List Char), xs ≠ [] → ∀ (rest : List Char) (b : Bool),
      dateScanAux (xs ++ rest) xs.length b = dateScanAux rest 0 true := by
  intro xs
  induction xs with
  | nil => intro h; exact absurd rfl h
  | cons c xs' ih =>
    intro _ rest b
    rw [List.cons_append]
    show dateScanAux (xs' ++ rest) xs'.length true = dateScanAux rest 0 true
    cases xs' with
    | nil => rfl
    | cons e xs2 => exact ih (by simp) rest true

theorem rtok_date_eq (d m : List Char) (y : Option (List Char))
    (rest : List Char) :
    rtok (.date d m y) ++ rest = d ++ '.' :: (m ++ (apTok y ++ rest)) := by
  cases y with
  | none => simp [rtok, apTok]
  | some ys => simp [rtok, apTok]

theorem dateScanAux_date_token {d m : List Char} {y : Option (List Char)}
    (hwf : WfTok (.date d m y)) (rest : List Char) (hrest : SpNil rest) :
    dateScanAux (rtok (.date d m y) ++ rest) 0 false =
      ⟨d, m, y⟩ :: dateScanAux rest 0 true := by
  obtain ⟨hdne, hdlen, hdd, hmne, hmlen, hmd, hy⟩ := hwf
  have hm := tryMonthPart_token hmne hmlen hmd hy hrest
  have htry : tryDate (d ++ '.' :: (m ++ (apTok y ++ rest))) =
      some ⟨d, m, y⟩ := tryDate_token hdne hdlen hdd hm
  rw [rtok_date_eq]
  rcases d with _ | ⟨d1, d'⟩
  · exact absurd rfl hdne
  rw [List.cons_append] at htry ⊢
  simp only [dateScanAux]
  rw [if_neg (by decide : ¬(false = true)), htry]
  show DateGroups.mk (d1 :: d') m y ::
      dateScanAux (d' ++ '.' :: (m ++ (apTok y ++ rest)))
        (dmConsumed ⟨d1 :: d', m, y⟩ - 1) true =
    DateGroups.mk (d1 :: d') m y :: dateScanAux rest 0 true
  congr 1
  have heq : d' ++ '.' :: (m ++ (apTok y ++ rest)) =
      (d' ++ '.' :: (m ++ apTok y)) ++ rest := by
    simp [List.append_assoc]
  have hlen : dmConsumed ⟨d1 :: d', m, y⟩ - 1 =
      (d' ++ '.' :: (m ++ apTok y)).length := by
    cases y <;> simp [dmConsumed, apTok] <;> omega
  rw [heq, hlen]
  exact dateScanAux_skip _ (by simp) rest true

theorem dateScanAux_hash_skip (s : List Char) (rest : List Char) (hne : s ≠ [])
    (hw : s.all isWordChar) (hrest : SpNil rest) :
    dateScanAux (('#' :: s) ++ rest) 0 false = dateScanAux rest 0 true := by
  rw [List.cons_append]
  simp only [dateScanAux]
  rw [if_neg (by decide : ¬(false = true)), tryDate_not_digit (by decide)]
  rw [show isWordChar '#' = false from by decide]
  exact dateScanAux_word_run s rest false hne hw hrest

/-- Date matches contributed by each token. -/
def tokDates : Tok → List DateGroups
  | .date d m y => [⟨d, m, y⟩]
  | _ => []

theorem dateScanAux_space (x : List Char) :
    dateScanAux (' ' :: x) 0 true = dateScanAux x 0 false := rfl

theorem dateScanAux_token (t : Tok) (rest : List Char) (hwf : WfTok t)
    (hrest : SpNil rest) :
    dateScanAux (rtok t ++ rest) 0 false =
      tokDates t ++ dateScanAux rest 0 true := by
  cases t with
  | marker => exact dateScanAux_hash_skip otchet rest (by decide) (by decide) hrest
  | nick s =>
    obtain ⟨hne, hw, -⟩ := hwf
    exact dateScanAux_hash_skip s rest hne hw hrest
  | num s =>
    exact dateScanAux_word_run s rest false hwf.1 (all_word_of_all_digit hwf.2)
      hrest
  | date d m y => exact dateScanAux_date_token hwf rest hrest

theorem dateScanAux_render (l : List Tok) (hwf : ∀ t ∈ l, WfTok t) :
    dateScanAux (render l) 0 false = concatF tokDates l := by
  induction l with
  | nil => rfl
  | cons t ts ih =>
    cases ts with
    | nil =>
      have h := dateScanAux_token t [] (hwf t (List.mem_cons_self _ _))
        (Or.inl rfl)
      rw [List.append_nil] at h
      show dateScanAux (rtok t) 0 false = tokDates t ++ []
      rw [h]
      rfl
    | cons t2 ts2 =>
      show dateScanAux (rtok t ++ ' ' :: render (t2 :: ts2)) 0 false =
        tokDates t ++ concatF tokDates (t2 :: ts2)
      rw [dateScanAux_token t _ (hwf t (List.mem_cons_self _ _))
        (Or.inr ⟨render (t2 :: ts2), rfl⟩), dateScanAux_space,
        ih fun x hx => hwf x (List.mem_cons_of_mem _ hx)]

/-! ### The date-removal pass on token texts -/

theorem stripDatesAux_skip :
    ∀ (xs : List Char), xs ≠ [] → ∀ (rest : List Char) (b : Bool),
      stripDatesAux (xs ++ rest) xs.length b = stripDatesAux rest 0 true := by
  intro xs
  induction xs with
  | nil => intro h; exact absurd rfl h
  | cons c xs' ih =>
    intro _ rest b
    rw [List.cons_append]
    show stripDatesAux (xs' ++ rest) xs'.length true = stripDatesAux rest 0 true
    cases xs' with
    | nil => rfl
    | cons e xs2 => exact ih (by simp) rest true

theorem stripDatesAux_word_run :
    ∀ (ws : List Char) (rest : List Char) (b : Bool), ws ≠ [] →
      ws.all isWordChar → SpNil rest →
      stripDatesAux (ws ++ rest) 0 b = ws ++ stripDatesAux rest 0 true := by
  intro ws
  induction ws with
  | nil => intro rest b h; exact absurd rfl h
  | cons c ws' ih =>
    intro rest b hne hw hrest
    rw [List.all_cons, Bool.and_eq_true] at hw
    have htry : tryDate (c :: (ws' ++ rest)) = none := by
      rw [← List.cons_append]
      exact tryDate_word_run_none (c :: ws') rest hne
        (by rw [List.all_cons, Bool.and_eq_true]; exact hw) hrest
    have hcont : stripDatesAux (ws' ++ rest) 0 (isWordChar c) =
        ws' ++ stripDatesAux rest 0 true := by
      rw [hw.1]
      cases ws' with
      | nil => rw [List.nil_append, List.nil_append]
      | cons e ws2 => exact ih rest true (by simp) hw.2 hrest
    rw [List.cons_append]
    simp only [stripDatesAux]
    by_cases hb : b
    · rw [if_pos hb, hcont]
      rfl
    · rw [if_neg hb, htry, hcont]
      rfl

theorem stripDatesAux_date_token {d m : List Char} {y : Option (List Char)}
    (hwf : WfTok (.date d m y)) (rest : List Char) (hrest : SpNil rest) :
    stripDatesAux (rtok (.date d m y) ++ rest) 0 false =
      ' ' :: stripDatesAux rest 0 true := by
  obtain ⟨hdne, hdlen, hdd, hmne, hmlen, hmd, hy⟩ := hwf
  have hm := tryMonthPart_token hmne hmlen hmd hy hrest
  have htry : tryDate (d ++ '.' :: (m ++ (apTok y ++ rest))) =
      some ⟨d, m, y⟩ := tryDate_token hdne hdlen hdd hm
  rw [rtok_date_eq]
  rcases d with _ | ⟨d1, d'⟩
  · exact absurd rfl hdne
  rw [List.cons_append] at htry ⊢
  simp only [stripDatesAux]
  rw [if_neg (by decide : ¬(false = true)), htry]
  show ' ' :: stripDatesAux (d' ++ '.' :: (m ++ (apTok y ++ rest)))
      (dmConsumed ⟨d1 :: d', m, y⟩ - 1) true =
    ' ' :: stripDatesAux rest 0 true
  congr 1
  have heq : d' ++ '.' :: (m ++ (apTok y ++ rest)) =
      (d' ++ '.' :: (m ++ apTok y)) ++ rest := by
    simp [List.append_assoc]
  have hlen : dmConsumed ⟨d1 :: d', m, y⟩ - 1 =
      (d' ++ '.' :: (m ++ apTok y)).length := by
    cases y <;> simp [dmConsumed, apTok] <;> omega
  rw [heq, hlen]
  exact stripDatesAux_skip _ (by simp) rest true

theorem stripDatesAux_hash_skip (s : List Char) (rest : List Char)
    (hne : s ≠ []) (hw : s.all isWordChar) (hrest : SpNil rest) :
    stripDatesAux (('#' :: s) ++ rest) 0 false =
      '#' :: (s ++ stripDatesAux rest 0 true) := by
  rw [List.cons_append]
  simp only [stripDatesAux]
  rw [if_neg (by decide : ¬(false = true)), tryDate_not_digit (by decide)]
  rw [show isWordChar '#' = false from by decide]
  rw [stripDatesAux_word_run s rest false hne hw hrest]

/-- The text chunk each token leaves after the date-removal pass. -/
def dchunkTok : Tok → List Char
  | .date _ _ _ => [' ']
  | t => rtok t

theorem stripDatesAux_space (x : List Char) :
    stripDatesAux (' ' :: x) 0 true = ' ' :: stripDatesAux x 0 false := rfl

theorem stripDatesAux_token (t : Tok) (rest : List Char) (hwf : WfTok t)
    (hrest : SpNil rest) :
    stripDatesAux (rtok t ++ rest) 0 false =
      dchunkTok t ++ stripDatesAux rest 0 true := by
  cases t with
  | marker =>
    exact stripDatesAux_hash_skip otchet rest (by decide) (by decide) hrest
  | nick s =>
    obtain ⟨hne, hw, -⟩ := hwf
    exact stripDatesAux_hash_skip s rest hne hw hrest
  | num s =>
    exact stripDatesAux_word_run s rest false hwf.1
      (all_word_of_all_digit hwf.2) hrest
  | date d m y => exact stripDatesAux_date_token hwf rest hrest

theorem stripDatesAux_render (l : List Tok) (hwf : ∀ t ∈ l, WfTok t) :
    stripDatesAux (render l) 0 false = joinSp (l.map dchunkTok) := by
  induction l with
  | nil => rfl
  | cons t ts ih =>
    cases ts with
    | nil =>
      have h := stripDatesAux_token t [] (hwf t (List.mem_cons_self _ _))
        (Or.inl rfl)
      rw [List.append_nil] at h
      show stripDatesAux (rtok t) 0 false = joinSp [dchunkTok t]
      rw [h]
      show dchunkTok t ++ [] = joinSp [dchunkTok t]
      rw [List.append_nil]
      rfl
    | cons t2 ts2 =>
      show stripDatesAux (rtok t ++ ' ' :: render (t2 :: ts2)) 0 false =
        dchunkTok t ++ ' ' :: joinSp ((t2 :: ts2).map dchunkTok)
      rw [stripDatesAux_token t _ (hwf t (List.mem_cons_self _ _))
        (Or.inr ⟨render (t2 :: ts2), rfl⟩), stripDatesAux_space,
        ih fun x hx => hwf x (List.mem_cons_of_mem _ hx)]

/-! ### The hashtag-removal pass on the date-stripped chunks -/

theorem stripTagsAux_space (x : List Char) :
    stripTagsAux (' ' :: x) none = ' ' :: stripTagsAux x none := rfl

theorem stripTagsAux_word_run :
    ∀ (s : List Char) (rest : List Char) (acc : List Char),
      s.all isWordChar → stripTagsAux (s ++ rest) (some acc) =
        stripTagsAux rest (some (acc ++ s)) := by
  intro s
  induction s with
  | nil => intro rest acc _; simp
  | cons c s' ih =>
    intro rest acc hall
    rw [List.all_cons, Bool.and_eq_true] at hall
    rw [List.cons_append]
    simp only [stripTagsAux]
    rw [if_pos hall.1, ih _ _ hall.2, List.append_assoc]
    rfl

theorem stripTagsAux_no_hash :
    ∀ (s : List Char) (rest : List Char), '#' ∉ s →
      stripTagsAux (s ++ rest) none = s ++ stripTagsAux rest none := by
  intro s
  induction s with
  | nil => intro rest _; rfl
  | cons c s' ih =>
    intro rest h
    rw [List.cons_append]
    simp only [stripTagsAux]
    rw [if_neg (show ¬(c = '#') by
      intro hc
      subst hc
      exact h (List.mem_cons_self _ _))]
    rw [ih _ fun hc => h (List.mem_cons_of_mem _ hc)]
    rfl

theorem stripTagsAux_hash_chunk (s : List Char) (rest : List Char)
    (hne : s ≠ []) (hw : s.all isWordChar) (hrest : SpNil rest) :
    stripTagsAux (('#' :: s) ++ rest) none = ' ' :: stripTagsAux rest none := by
  rw [List.cons_append]
  simp only [stripTagsAux]
  rw [if_pos trivial, stripTagsAux_word_run s rest [] hw]
  simp only [List.nil_append]
  rcases hrest with rfl | ⟨r, rfl⟩
  · simp only [stripTagsAux]
    rw [if_neg hne]
  · rw [stripTagsAux_space r]
    simp only [stripTagsAux]
    rw [if_neg (by decide : ¬isWordChar ' ' = true), if_neg hne,
      if_neg (by decide : ¬(' ' = '#'))]

/-- The chunk each token leaves after both removal passes. -/
def cchunkTok : Tok → List Char
  | .num s => s
  | _ => [' ']

theorem stripTagsAux_chunk (t : Tok) (rest : List Char) (hwf : WfTok t)
    (hrest : SpNil rest) :
    stripTagsAux (dchunkTok t ++ rest) none =
      cchunkTok t ++ stripTagsAux rest none := by
  cases t with
  | marker =>
    exact stripTagsAux_hash_chunk otchet rest (by decide) (by decide) hrest
  | nick s =>
    obtain ⟨hne, hw, -⟩ := hwf
    exact stripTagsAux_hash_chunk s rest hne hw hrest
  | num s => exact stripTagsAux_no_hash s rest (no_hash_of_all_digit hwf.2)
  | date d m y =>
    show stripTagsAux (' ' :: rest) none = ' ' :: stripTagsAux rest none
    exact stripTagsAux_space rest

theorem stripTagsAux_chunks (l : List Tok) (hwf : ∀ t ∈ l, WfTok t) :
    stripTagsAux (joinSp (l.map dchunkTok)) none =
      joinSp (l.map cchunkTok) := by
  induction l with
  | nil => rfl
  | cons t ts ih =>
    cases ts with
    | nil =>
      have h := stripTagsAux_chunk t [] (hwf t (List.mem_cons_self _ _))
        (Or.inl rfl)
      rw [List.append_nil] at h
      show stripTagsAux (dchunkTok t) none = joinSp [cchunkTok t]
      rw [h]
      show cchunkTok t ++ [] = joinSp [cchunkTok t]
      rw [List.append_nil]
      rfl
    | cons t2 ts2 =>
      show stripTagsAux (dchunkTok t ++ ' ' :: joinSp ((t2 :: ts2).map dchunkTok))
          none = cchunkTok t ++ ' ' :: joinSp ((t2 :: ts2).map cchunkTok)
      rw [stripTagsAux_chunk t _ (hwf t (List.mem_cons_self _ _))
        (Or.inr ⟨joinSp ((t2 :: ts2).map dchunkTok), rfl⟩),
        stripTagsAux_space,
        ih fun x hx => hwf x (List.mem_cons_of_mem _ hx)]

/-! ### The number scanner on the fully cleaned chunks -/

/-- Integer tokens contributed by each token. -/
def tokNums : Tok → List (List Char)
  | .num s => [s]
  | _ => []

theorem numsAux_space (x : List Char) (b : Bool) :
    numsAux (' ' :: x) b none = numsAux x false none := rfl

theorem numsAux_run_acc :
    ∀ (s' : List Char) (run : List Char) (rest : List Char),
      s'.all isDigitCh → SpNil rest →
      numsAux (s' ++ rest) true (some run) =
        (run ++ s') :: numsAux rest false none := by
  intro s'
  induction s' with
  | nil =>
    intro run rest _ hrest
    rcases hrest with rfl | ⟨r, rfl⟩
    · simp [numsAux]
    · rw [List.nil_append, List.append_nil]
      show numsAux (' ' :: r) true (some run) = run :: numsAux (' ' :: r) false none
      rw [numsAux_space r false]
      rfl
  | cons c s2 ih =>
    intro run rest hall hrest
    rw [List.all_cons, Bool.and_eq_true] at hall
    rw [List.cons_append]
    simp only [numsAux]
    rw [if_pos hall.1, ih _ _ hall.2 hrest, List.append_assoc]
    rfl

theorem numsAux_num_chunk (s : List Char) (rest : List Char) (hne : s ≠ [])
    (hd : s.all isDigitCh) (hrest : SpNil rest) :
    numsAux (s ++ rest) false none = s :: numsAux rest false none := by
  rcases s with _ | ⟨c, s'⟩
  · exact absurd rfl hne
  rw [List.all_cons, Bool.and_eq_true] at hd
  rw [List.cons_append]
  simp only [numsAux]
  rw [if_pos ⟨hd.1, trivial⟩, numsAux_run_acc s' [c] rest hd.2 hrest]
  rfl

theorem numsAux_chunks (l : List Tok) (hwf : ∀ t ∈ l, WfTok t) :
    numsAux (joinSp (l.map cchunkTok)) false none = concatF tokNums l := by
  induction l with
  | nil => rfl
  | cons t ts ih =>
    have hwt := hwf t (List.mem_cons_self _ _)
    have hwts : ∀ x ∈ ts, WfTok x := fun x hx => hwf x (List.mem_cons_of_mem _ hx)
    cases ts with
    | nil =>
      cases t with
      | num s =>
        show numsAux s false none = [s] ++ []
        have h := numsAux_num_chunk s [] hwt.1 hwt.2 (Or.inl rfl)
        rw [List.append_nil] at h
        rw [h]
        rfl
      | marker => rfl
      | nick s => rfl
      | date d m y => rfl
    | cons t2 ts2 =>
      cases t with
      | num s =>
        show numsAux (s ++ ' ' :: joinSp ((t2 :: ts2).map cchunkTok))
            false none = [s] ++ concatF tokNums (t2 :: ts2)
        rw [numsAux_num_chunk s _ hwt.1 hwt.2
          (Or.inr ⟨joinSp ((t2 :: ts2).map cchunkTok), rfl⟩),
          numsAux_space, ih hwts]
        rfl
      | marker =>
        show numsAux (' ' :: (' ' :: joinSp ((t2 :: ts2).map cchunkTok)))
            false none = concatF tokNums (t2 :: ts2)
        rw [numsAux_space, numsAux_space, ih hwts]
      | nick s =>
        show numsAux (' ' :: (' ' :: joinSp ((t2 :: ts2).map cchunkTok)))
            false none = concatF tokNums (t2 :: ts2)
        rw [numsAux_space, numsAux_space, ih hwts]
      | date d m y =>
        show numsAux (' ' :: (' ' :: joinSp ((t2 :: ts2).map cchunkTok)))
            false none = concatF tokNums (t2 :: ts2)
        rw [numsAux_space, numsAux_space, ih hwts]

/-! ### Assembly: `parse_report` on token texts -/

instance : (t : Tok) → Decidable (WfTok t) := fun t =>
  match t with
  | .marker => isTrue trivial
  | .nick s => inferInstanceAs
      (Decidable (s ≠ [] ∧ s.all isWordChar ∧ lowerL s ≠ otchet))
  | .num s => inferInstanceAs (Decidable (s ≠ [] ∧ s.all isDigitCh))
  | .date d m none => inferInstanceAs
      (Decidable (d ≠ [] ∧ d.length ≤ 2 ∧ d.all isDigitCh ∧
        m ≠ [] ∧ m.length ≤ 2 ∧ m.all isDigitCh ∧ True))
  | .date d m (some ys) => inferInstanceAs
      (Decidable (d ≠ [] ∧ d.length ≤ 2 ∧ d.all isDigitCh ∧
        m ≠ [] ∧ m.length ≤ 2 ∧ m.all isDigitCh ∧
        (2 ≤ ys.length ∧ ys.length ≤ 4 ∧ ys.all isDigitCh)))

/-- Nicknames contributed by each token. -/
def tokNicks : Tok → List (List Char)
  | .nick s => [s]
  | _ => []

theorem pickNickname_filter (ts : List (List Char)) :
    pickNickname ts = (ts.filter (fun t => lowerL t ≠ otchet)).head? := by
  induction ts with
  | nil => rfl
  | cons t ts ih =>
    unfold pickNickname
    by_cases h : lowerL t ≠ otchet
    · rw [if_pos h, List.filter_cons_of_pos (by simpa using h)]
      rfl
    · rw [if_neg h, List.filter_cons_of_neg (by simpa using h)]
      exact ih

theorem filter_tokTags (l : List Tok) (hwf : ∀ t ∈ l, WfTok t) :
    (concatF tokTags l).filter (fun t => lowerL t ≠ otchet) =
      concatF tokNicks l := by
  induction l with
  | nil => rfl
  | cons t ts ih =>
    show (tokTags t ++ concatF tokTags ts).filter (fun x => lowerL x ≠ otchet) =
      tokNicks t ++ concatF tokNicks ts
    rw [List.filter_append, ih fun x hx => hwf x (List.mem_cons_of_mem _ hx)]
    congr 1
    cases t with
    | marker =>
      show [otchet].filter (fun x => lowerL x ≠ otchet) = []
      rw [List.filter_cons_of_neg (by decide)]
      rfl
    | nick s =>
      have hne := (hwf _ (List.mem_cons_self _ _)).2.2
      show [s].filter (fun x => lowerL x ≠ otchet) = [s]
      rw [List.filter_cons_of_pos (by simpa using hne)]
      rfl
    | num s => rfl
    | date d m y => rfl

theorem nickname_render (l : List Tok) (hwf : ∀ t ∈ l, WfTok t)
    (nowYear : Nat) :
    (parse_report (render l) nowYear).nickname = (concatF tokNicks l).head? := by
  show pickNickname (tagsAux (render l) none) = _
  rw [tagsAux_render l hwf, pickNickname_filter, filter_tokTags l hwf]

theorem date_render (l : List Tok) (hwf : ∀ t ∈ l, WfTok t) (nowYear : Nat) :
    (parse_report (render l) nowYear).date =
      ((concatF tokDates l).head?).bind (resolveDM nowYear) := by
  show (searchDateAux (render l) false).bind (resolveDM nowYear) = _
  rw [searchDate_eq_head, dateScanAux_render l hwf]

theorem steps_render (l : List Tok) (hwf : ∀ t ∈ l, WfTok t) (nowYear : Nat) :
    (parse_report (render l) nowYear).steps =
      ((concatF tokNums l).head?).map toNatL := by
  show ((numsAux (cleanedText (render l)) false none).head?).map toNatL = _
  unfold cleanedText
  rw [stripDatesAux_render l hwf, stripTagsAux_chunks l hwf, numsAux_chunks l hwf]

/-- A text consisting (in any order) of the marker tag, one nickname tag, one
date token and one integer token parses to exactly that nickname, that date
and that number. -/
theorem parse_perm_four {n d m s : List Char} {yr : Option (List Char)}
    {l : List Tok}
    (h : l.Perm [Tok.marker, Tok.nick n, Tok.date d m yr, Tok.num s])
    (hwf : ∀ t ∈ l, WfTok t) (nowYear : Nat) :
    parse_report (render l) nowYear =
      ⟨some n, resolveDM nowYear ⟨d, m, yr⟩, some (toNatL s)⟩ := by
  have hn : concatF tokNicks l = [n] :=
    List.perm_singleton.mp (concatF_perm tokNicks h)
  have hd : concatF tokDates l = [⟨d, m, yr⟩] :=
    List.perm_singleton.mp (concatF_perm tokDates h)
  have hs : concatF tokNums l = [s] :=
    List.perm_singleton.mp (concatF_perm tokNums h)
  have e1 := nickname_render l hwf nowYear
  have e2 := date_render l hwf nowYear
  have e3 := steps_render l hwf nowYear
  rw [hn] at e1
  rw [hd] at e2
  rw [hs] at e3
  have : parse_report (render l) nowYear =
      ⟨(parse_report (render l) nowYear).nickname,
       (parse_report (render l) nowYear).date,
       (parse_report (render l) nowYear).steps⟩ := rfl
  rw [this, e1, e2, e3]
  rfl

/-- C2: order independence of the parser.  For a text containing the marker
tag, a (well-formed) nickname tag, a date token and an integer token, `parse`
returns the same `(nickname, date, steps)` triple for every permutation of
the relative positions of those components within the text; indeed each
permutation parses to exactly the expected triple. -/
theorem claim_order_independence (n d m s : List Char)
    (yr : Option (List Char)) (nowYear : Nat) (l₁ l₂ : List Tok)
    (hwf : ∀ t ∈ [Tok.marker, Tok.nick n, Tok.date d m yr, Tok.num s], WfTok t)
    (h₁ : l₁.Perm [Tok.marker, Tok.nick n, Tok.date d m yr, Tok.num s])
    (h₂ : l₂.Perm [Tok.marker, Tok.nick n, Tok.date d m yr, Tok.num s]) :
    parse_report (render l₁) nowYear = parse_report (render l₂) nowYear ∧
      parse_report (render l₁) nowYear =
        ⟨some n, resolveDM nowYear ⟨d, m, yr⟩, some (toNatL s)⟩ := by
  have hwf₁ : ∀ t ∈ l₁, WfTok t := fun t ht => hwf t (h₁.mem_iff.mp ht)
  have hwf₂ : ∀ t ∈ l₂, WfTok t := fun t ht => hwf t (h₂.mem_iff.mp ht)
  have p₁ := parse_perm_four h₁ hwf₁ nowYear
  have p₂ := parse_perm_four h₂ hwf₂ nowYear
  exact ⟨p₁.trans p₂.symm, p₁⟩

theorem claim_order_independence_witness :
    (WfTok Tok.marker ∧ WfTok (Tok.nick "alice".data) ∧
      WfTok (Tok.date "1".data "5".data (some "2024".data)) ∧
      WfTok (Tok.num "8000".data)) ∧
      ([Tok.num "8000".data, Tok.marker, Tok.nick "alice".data,
        Tok.date "1".data "5".data (some "2024".data)].Perm
        [Tok.marker, Tok.nick "alice".data,
         Tok.date "1".data "5".data (some "2024".data), Tok.num "8000".data]) ∧
      ([Tok.date "1".data "5".data (some "2024".data), Tok.num "8000".data,
        Tok.marker, Tok.nick "alice".data].Perm
        [Tok.marker, Tok.nick "alice".data,
         Tok.date "1".data "5".data (some "2024".data), Tok.num "8000".data]) ∧
      render [Tok.num "8000".data, Tok.marker, Tok.nick "alice".data,
        Tok.date "1".data "5".data (some "2024".data)] =
        "8000 #отчет #alice 1.5.2024".data ∧
      (parse_report (render [Tok.num "8000".data, Tok.marker,
          Tok.nick "alice".data,
          Tok.date "1".data "5".data (some "2024".data)]) 2026 =
        parse_report (render [Tok.date "1".data "5".data (some "2024".data),
          Tok.num "8000".data, Tok.marker, Tok.nick "alice".data]) 2026 ∧
        parse_report (render [Tok.num "8000".data, Tok.marker,
          Tok.nick "alice".data,
          Tok.date "1".data "5".data (some "2024".data)]) 2026 =
          ⟨some "alice".data,
           resolveDM 2026 ⟨"1".data, "5".data, some "2024".data⟩,
           some (toNatL "8000".data)⟩) :=
  ⟨⟨by decide, by decide, by decide, by decide⟩, by decide, by decide,
    by decide,
    claim_order_independence "alice".data "1".data "5".data "8000".data
      (some "2024".data) 2026 _ _ (by decide) (by decide) (by decide)⟩

/-- C8: step-count extraction on a report text: after removing every
date-pattern substring and every hashtag substring, the first remaining
standalone integer token is returned (`none` when there is none) — on a
token text, exactly the first integer token, so digits embedded in dates or
hashtags are never returned as the step count. -/
theorem claim_steps_isolation (l : List Tok) (hwf : ∀ t ∈ l, WfTok t)
    (nowYear : Nat) :
    (parse_report (render l) nowYear).steps =
      ((concatF tokNums l).head?).map toNatL :=
  steps_render l hwf nowYear

theorem claim_steps_isolation_witness :
    (WfTok Tok.marker ∧ WfTok (Tok.nick "alice".data) ∧
      WfTok (Tok.date "5".data "3".data (some "2024".data)) ∧
      WfTok (Tok.num "12345".data)) ∧
      render [Tok.marker, Tok.nick "alice".data,
        Tok.date "5".data "3".data (some "2024".data), Tok.num "12345".data] =
        "#отчет #alice 5.3.2024 12345".data ∧
      (parse_report (render [Tok.marker, Tok.nick "alice".data,
          Tok.date "5".data "3".data (some "2024".data),
          Tok.num "12345".data]) 2026).steps =
        ((concatF tokNums [Tok.marker, Tok.nick "alice".data,
          Tok.date "5".data "3".data (some "2024".data),
          Tok.num "12345".data]).head?).map toNatL ∧
      (parse_report "#отчет #alice 5.3.2024 12345".data 2026).steps =
        some 12345 :=
  ⟨⟨by decide, by decide, by decide, by decide⟩, by decide,
    claim_steps_isolation [Tok.marker, Tok.nick "alice".data,
      Tok.date "5".data "3".data (some "2024".data), Tok.num "12345".data]
      (by decide) 2026, by decide⟩

theorem claim_missing_date_uses_now_witness :
    (parse_report "#отчет #alice 8000".data 2026).date = none ∧
      (parse_report "#отчет #alice 8000".data 2026).steps = some 8000 ∧
      (resolve_nickname [] none
        (parse_report "#отчет #alice 8000".data 2026).nickname).nickname =
        some "alice".data ∧
      "alice".data ≠ ([] : List Char) ∧
      (handle_report [] none "#отчет #alice 8000".data 2026 ⟨2026, 1, 15⟩).1 =
        ReportOutcome.accepted "alice".data ⟨2026, 1, 15⟩ 8000 :=
  ⟨by decide, by decide, by decide, by decide,
    claim_missing_date_uses_now [] none "#отчет #alice 8000".data 2026
      ⟨2026, 1, 15⟩ "alice".data 8000 (by decide) (by decide) (by decide)
      (by decide)⟩

end EasygoBot
